import Mathlib

/-!
# Mandelbrot renderer: escape-time kernel, row scheduler, intensity map, PPM writer

A shallow embedding of `src/mandelbrot.c`.

* `unsigned int` values are natural numbers, reduced modulo `UINT_MOD` where the
  C arithmetic can wrap (`line_num++`, the cell index `i + j * dimx`).
* The `double` arithmetic of the renderer is kept abstract: the render is written
  over any type `α` with `+ - * /`, a conversion from the naturals and a decidable
  `<`.  Reading the arithmetic as exact means taking `α := ℚ`.
* The threads of `mandelbrot_multi` are a step function `core_step`: one step of
  one thread is either the mutex-protected claim (`j = state->line_num++` and the
  test `j >= dimy`) or one turn of the pixel loop.  A schedule is the list of
  thread ids in the order in which they take their steps.
* The image buffer is kept as the history of the stores made into it.
* The `float` arithmetic of `map_colour` is written over the rationals with a
  rounding function `fl` applied after every operation; `fl := id` is the exact
  reading.  The host byte order seen by `fwrite` is a parameter of `write_ppm`.
-/

set_option linter.unusedSectionVars false
set_option linter.unusedVariables false

namespace Mandelbrot

/-- Modulus of `unsigned int` arithmetic (2^32). -/
def UINT_MOD : Nat := 4294967296

/-- Modulus of `unsigned short` arithmetic (2^16). -/
def USHORT_MOD : Nat := 65536

/-- Line 7: `#define MAX_ITER 1000`. -/
def MAX_ITER : Nat := 1000

/-- Line 8: `#define MAX_BOUND 1000000`. -/
def MAX_BOUND : Nat := 1000000

section Render

variable {α : Type} [Add α] [Sub α] [Mul α] [Div α] [NatCast α] [LT α]
  [∀ a b : α, Decidable (a < b)]

/-- The inner `while` loop of lines 62-69 and 123-130, entered with the current
`z_real`, `z_img` and `iter`; the result is the final `iter`.  The guard is the
guard of the source.  The first argument bounds the number of turns; it is
called with `max_iter - iter`, which the guard `iter < max_iter` never lets run
out (see `escape_loop_fuel`). -/
def escape_loop (max_iter : Nat) (c_real c_img : α) : Nat → α → α → Nat → Nat
  | 0, _, _, iter => iter
  | fuel + 1, z_real, z_img, iter =>
    if z_real * z_real + z_img * z_img < ((MAX_BOUND : Nat) : α) ∧ iter < max_iter then
      escape_loop max_iter c_real c_img fuel
        (z_real * z_real - z_img * z_img + c_real)
        (((2 : Nat) : α) * z_real * z_img + c_img)
        (iter + 1)
    else iter

/-- Lines 59-69 / 120-130: `z_real = c_real; z_img = c_img; iter = 0;` and the
`while` loop.  The value of `iter` when the loop is left. -/
def escape_iter (max_iter : Nat) (c_real c_img : α) : Nat :=
  escape_loop max_iter c_real c_img max_iter c_real c_img 0

/-- Line 131: the `unsigned int iter` left by the loop is stored into an
`unsigned short` cell, that is reduced modulo 2^16. -/
def core_pixel (max_iter : Nat) (c_real c_img : α) : Nat :=
  escape_iter max_iter c_real c_img % USHORT_MOD

/-- The constant fields of `mandelbrot_state` (lines 79-84). -/
structure RenderParams (α : Type) where
  minx : α
  miny : α
  increment : α
  dimx : Nat
  dimy : Nat
  max_iter : Nat

/-- One store `img_data[cell] = value`, together with the loop variables at the
moment of the store: the thread, the row `j`, the column `i` and the sample point
`(c_real, c_img)`. -/
structure PixelWrite (α : Type) where
  worker : Nat
  j : Nat
  i : Nat
  c_real : α
  c_img : α
  cell : Nat
  value : Nat

/-- Where a thread running `mandelbrot_core` stands. -/
inductive ThreadPc (α : Type) where
  /-- At line 109, about to lock the mutex and claim a row. -/
  | claim : ThreadPc α
  /-- At the test `i < dimx` of the `for` of line 118, inside row `j`. -/
  | row (j i : Nat) (c_real c_img : α) : ThreadPc α
  /-- Past the `break` of line 113: the thread has returned. -/
  | exited : ThreadPc α

/-- Whether the thread has returned. -/
def ThreadPc.isExited : ThreadPc α → Bool
  | .exited => true
  | _ => false

/-- The shared state of a render: the cursor `line_num`, the position of every
thread, the successful claims `(thread, row)` and the stores into `img_data`,
both most recent first. -/
structure RenderState (α : Type) where
  line_num : Nat
  pc : Nat → ThreadPc α
  claims : List (Nat × Nat)
  writes : List (PixelWrite α)

/-- One step of thread `w` in `mandelbrot_core` (lines 107-134).

* At `claim`: `j = state->line_num++` under the mutex (the increment is
  unconditional and wraps modulo 2^32), then `if (j >= dimy) break;`, else
  `c_img = miny + increment * j; c_real = minx; i = 0`.
* At `row j i`: if `i < dimx`, run the kernel, store `iter` (an `unsigned int`)
  into the `unsigned short` cell `i + j * dimx` (index computed in `unsigned int`),
  `c_real += increment; ++i`; otherwise go back to the claim.
* A thread that has returned takes no step. -/
def core_step (p : RenderParams α) (w : Nat) (s : RenderState α) : RenderState α :=
  match s.pc w with
  | .exited => s
  | .claim =>
    if p.dimy ≤ s.line_num then
      { s with line_num := (s.line_num + 1) % UINT_MOD,
               pc := Function.update s.pc w .exited }
    else
      { s with line_num := (s.line_num + 1) % UINT_MOD,
               pc := Function.update s.pc w
                 (.row s.line_num 0 p.minx (p.miny + p.increment * ((s.line_num : Nat) : α))),
               claims := (w, s.line_num) :: s.claims }
  | .row j i c_real c_img =>
    if i < p.dimx then
      { s with pc := Function.update s.pc w (.row j (i + 1) (c_real + p.increment) c_img),
               writes := { worker := w, j := j, i := i, c_real := c_real, c_img := c_img,
                           cell := (i + j * p.dimx) % UINT_MOD,
                           value := core_pixel p.max_iter c_real c_img }
                         :: s.writes }
    else
      { s with pc := Function.update s.pc w .claim }

/-- Play a schedule: the threads take their steps in the order listed. -/
def run (p : RenderParams α) (sched : List Nat) (s : RenderState α) : RenderState α :=
  sched.foldl (fun st w => core_step p w st) s

/-- Lines 145-155 of `mandelbrot_multi`: the fields of `state`, with
`increment = xsize / (double)dimx`. -/
def mandelbrot_multi_params (minx miny xsize : α) (dimx dimy max_iter : Nat) : RenderParams α :=
  { minx := minx, miny := miny, increment := xsize / ((dimx : Nat) : α),
    dimx := dimx, dimy := dimy, max_iter := max_iter }

/-- Lines 153 and 160-161 of `mandelbrot_multi`: `line_num = 0` and `num_threads`
threads created, each at the top of `mandelbrot_core`; nothing claimed or stored. -/
def mandelbrot_multi_init (num_threads : Nat) : RenderState α :=
  { line_num := 0,
    pc := fun w => if w < num_threads then .claim else .exited,
    claims := [],
    writes := [] }

/-- Lines 163-164: every `pthread_join` has returned, that is every thread has
left `mandelbrot_core`. -/
def joined (num_threads : Nat) (s : RenderState α) : Prop :=
  ∀ w, w < num_threads → (s.pc w).isExited = true

/-- The state `mandelbrot_multi` has reached when the threads have taken the
steps of `sched`. -/
def mandelbrot_multi (minx miny xsize : α) (dimx dimy max_iter num_threads : Nat)
    (sched : List Nat) : RenderState α :=
  run (mandelbrot_multi_params minx miny xsize dimx dimy max_iter) sched
    (mandelbrot_multi_init num_threads)

/-- The rows handed out by the successful claims, most recent first. -/
def claimed_rows (s : RenderState α) : List Nat :=
  s.claims.map Prod.snd

/-- Number of threads among the first `num_threads` that have returned. -/
def exited_count (num_threads : Nat) (pc : Nat → ThreadPc α) : Nat :=
  ((Finset.range num_threads).filter (fun w => (pc w).isExited = true)).card

/-- The content of `img_data` after the stores of a render: cell `k` holds the
value of the most recent store into it, and nothing known (`none`) when no store
was made (the buffer comes from `malloc`). -/
def img_data (writes : List (PixelWrite α)) (k : Nat) : Option Nat :=
  (writes.find? (fun e => e.cell == k)).map (fun e => e.value)

/-- The loop `for (i = 0; i < n; ++i) body`. -/
def for_loop {σ : Type} (n : Nat) (body : Nat → σ → σ) (init : σ) : σ :=
  (List.range n).foldl (fun st i => body i st) init

/-- The variables of the single threaded `mandelbrot` that live across loop
turns, and the stores made so far (most recent first). -/
structure MandelbrotLocals (α : Type) where
  c_real : α
  c_img : α
  writes : List (PixelWrite α)

/-- Lines 59-71: one turn of the inner `for` of `mandelbrot`: run the kernel at
`(c_real, c_img)`, store `iter` (an `unsigned short` here) into cell
`i + j * dimx`, then `c_real += increment`. -/
def mandelbrot_pixel (increment : α) (dimx max_iter j i : Nat) (st : MandelbrotLocals α) :
    MandelbrotLocals α :=
  { st with
    writes := { worker := 0, j := j, i := i, c_real := st.c_real, c_img := st.c_img,
                cell := (i + j * dimx) % UINT_MOD,
                value := escape_iter max_iter st.c_real st.c_img } :: st.writes,
    c_real := st.c_real + increment }

/-- Lines 56-73: one turn of the outer `for` of `mandelbrot`: `c_real = minx`, the
inner loop, then `c_img += increment`. -/
def mandelbrot_row (minx increment : α) (dimx max_iter j : Nat) (st : MandelbrotLocals α) :
    MandelbrotLocals α :=
  { for_loop dimx (mandelbrot_pixel increment dimx max_iter j) { st with c_real := minx } with
    c_img := (for_loop dimx (mandelbrot_pixel increment dimx max_iter j)
                { st with c_real := minx }).c_img + increment }

/-- The single threaded `mandelbrot` (lines 45-75): the stores it makes into
`img_data`, most recent first.  `c_real` is unset before the first row; the
model starts it at `minx`, the value line 56 gives it before any use. -/
def mandelbrot (minx miny xsize : α) (dimx dimy max_iter : Nat) : List (PixelWrite α) :=
  (for_loop dimy (mandelbrot_row minx (xsize / ((dimx : Nat) : α)) dimx max_iter)
    { c_real := minx, c_img := miny, writes := [] }).writes

/-- Invariant of the cursor while `dimy + num_threads <= 2^32`: the rows handed
out so far are `0 .. n-1` in order, no thread returns before all `dimy` rows are
out, and the cursor has counted the successful and the failed claims. -/
structure SchedInv (p : RenderParams α) (W : Nat) (s : RenderState α) : Prop where
  outside : ∀ w, W ≤ w → (s.pc w).isExited = true
  rows : claimed_rows s = (List.range s.claims.length).reverse
  le_dimy : s.claims.length ≤ p.dimy
  all_out : 1 ≤ exited_count W s.pc → s.claims.length = p.dimy
  cursor : s.line_num = (s.claims.length + exited_count W s.pc) % UINT_MOD

/-- What holds of a store made by `mandelbrot_core`: the pixel is inside the image,
`c_real` is `minx` after `i` additions of `increment`, `c_img` is
`miny + increment * j`, the cell is `i + j * dimx` in `unsigned int` arithmetic, the
value is the kernel's count, and the storing thread holds a claim on row `j`. -/
structure CoreWriteOK (p : RenderParams α) (claims : List (Nat × Nat)) (e : PixelWrite α) :
    Prop where
  i_lt : e.i < p.dimx
  j_lt : e.j < p.dimy
  c_real_eq : e.c_real = (fun c => c + p.increment)^[e.i] p.minx
  c_img_eq : e.c_img = p.miny + p.increment * ((e.j : Nat) : α)
  cell_eq : e.cell = (e.i + e.j * p.dimx) % UINT_MOD
  value_eq : e.value = core_pixel p.max_iter e.c_real e.c_img
  claimed : (e.worker, e.j) ∈ claims

/-- Invariant of the pixel loops of the threads: a thread inside row `j` at
column `i` claimed that row and carries the sample point of pixel `(i, j)`, and
every store made so far is a correct one. -/
structure CoreInv (p : RenderParams α) (s : RenderState α) : Prop where
  pcs : ∀ w j i c_real c_img, s.pc w = .row j i c_real c_img →
    j < p.dimy ∧ i ≤ p.dimx ∧ c_real = (fun c => c + p.increment)^[i] p.minx ∧
    c_img = p.miny + p.increment * ((j : Nat) : α) ∧ (w, j) ∈ s.claims
  stores : ∀ e, e ∈ s.writes → CoreWriteOK p s.claims e

/-- The store `mandelbrot` makes for pixel `(i, j)`, in closed form: `c_real` is
`minx` after `i` additions of `increment` and `c_img` is `miny` after `j`. -/
def mandelbrot_write (minx miny increment : α) (dimx max_iter j i : Nat) : PixelWrite α :=
  { worker := 0, j := j, i := i,
    c_real := (fun c => c + increment)^[i] minx,
    c_img := (fun c => c + increment)^[j] miny,
    cell := (i + j * dimx) % UINT_MOD,
    value := escape_iter max_iter ((fun c => c + increment)^[i] minx)
               ((fun c => c + increment)^[j] miny) }

/-- Number of stores made into cell `k` during the render. -/
def store_count (writes : List (PixelWrite α)) (k : Nat) : Nat :=
  writes.countP (fun e => e.cell == k)

/-- Some schedule leads from state `s` to state `t`. -/
def Reach (p : RenderParams α) (s t : RenderState α) : Prop :=
  ∃ sched, run p sched s = t

/-- The stores thread `w` makes in row `j` during `n` turns of its pixel loop
entered at column `i` with `c_real`, most recent first. -/
def row_writes (p : RenderParams α) (w j : Nat) (c_img : α) : Nat → α → Nat → List (PixelWrite α)
  | _, _, 0 => []
  | i, c_real, n + 1 =>
    row_writes p w j c_img (i + 1) (c_real + p.increment) n ++
      [{ worker := w, j := j, i := i, c_real := c_real, c_img := c_img,
         cell := (i + j * p.dimx) % UINT_MOD,
         value := core_pixel p.max_iter c_real c_img }]

/-- Invariant of the rows in progress: for every successful claim `(w, j)` and
every column `i` of the image, pixel `(i, j)` has been stored, or thread `w` is
still inside row `j` at a column not past `i`. -/
def ProgressInv (p : RenderParams α) (s : RenderState α) : Prop :=
  ∀ w j, (w, j) ∈ s.claims → ∀ i, i < p.dimx →
    (∃ e, e ∈ s.writes ∧ e.j = j ∧ e.i = i) ∨
    (∃ i0 c_real c_img, s.pc w = .row j i0 c_real c_img ∧ i0 ≤ i)

/-- Invariant of the cursor that survives its wrap: either every row has been
handed out, or no thread has returned yet, the cursor is at most `dimy` and every
row below the cursor has been handed out. -/
def RowsInv (p : RenderParams α) (W : Nat) (s : RenderState α) : Prop :=
  (∀ r, r < p.dimy → r ∈ claimed_rows s) ∨
  ((∀ w, w < W → (s.pc w).isExited = false) ∧ s.line_num ≤ p.dimy ∧
    ∀ r, r < s.line_num → r ∈ claimed_rows s)

/-- Number of stores made for pixel `(i, j)` during the render. -/
def pixel_count (writes : List (PixelWrite α)) (j i : Nat) : Nat :=
  writes.countP (fun e => e.j == j && e.i == i)

/-- Invariant behind "at most once": no pixel has been stored twice, and a thread
inside row `j` at column `i0` has no store yet for the columns from `i0` on. -/
structure OnceInv (p : RenderParams α) (s : RenderState α) : Prop where
  ahead : ∀ w j i0 c_real c_img, s.pc w = .row j i0 c_real c_img →
    ∀ i, i0 ≤ i → pixel_count s.writes j i = 0
  once : ∀ j i, pixel_count s.writes j i ≤ 1

/-- The inner `while` loop again, returning the three variables it leaves:
`z_real`, `z_img` and `iter`.  Same guard and same body as `escape_loop`. -/
def escape_loop_state (max_iter : Nat) (c_real c_img : α) : Nat → α → α → Nat → α × α × Nat
  | 0, z_real, z_img, iter => (z_real, z_img, iter)
  | fuel + 1, z_real, z_img, iter =>
    if z_real * z_real + z_img * z_img < ((MAX_BOUND : Nat) : α) ∧ iter < max_iter then
      escape_loop_state max_iter c_real c_img fuel
        (z_real * z_real - z_img * z_img + c_real)
        (((2 : Nat) : α) * z_real * z_img + c_img)
        (iter + 1)
    else (z_real, z_img, iter)

end Render

/-! ### The escape-time kernel as the specification words it (spec 4.2) -/

/-- Product of two complex numbers given by their real and imaginary parts. -/
def cmul (z w : ℚ × ℚ) : ℚ × ℚ :=
  (z.1 * w.1 - z.2 * w.2, z.1 * w.2 + z.2 * w.1)

/-- Squared modulus of a complex number. -/
def normSq (z : ℚ × ℚ) : ℚ :=
  z.1 * z.1 + z.2 * z.2

/-- The orbit `z_0 = c`, `z_{k+1} = z_k^2 + c`. -/
def spec_orbit (c : ℚ × ℚ) : Nat → ℚ × ℚ
  | 0 => c
  | k + 1 => ((cmul (spec_orbit c k) (spec_orbit c k)).1 + c.1,
              (cmul (spec_orbit c k) (spec_orbit c k)).2 + c.2)

/-- The orbit has left the bound at step `n`: `|z_n|^2 >= max_bound`. -/
def spec_escaped (max_bound : ℚ) (c : ℚ × ℚ) (n : Nat) : Prop :=
  max_bound ≤ normSq (spec_orbit c n)

instance spec_escaped_decidable (max_bound : ℚ) (c : ℚ × ℚ) (n : Nat) :
    Decidable (spec_escaped max_bound c n) := by
  unfold spec_escaped; infer_instance

/-- The smallest `n <= max_iter` with `|z_n|^2 >= max_bound`, and `max_iter` when
there is none. -/
def spec_escape_count (max_bound : ℚ) (c : ℚ × ℚ) (max_iter : Nat) : Nat :=
  if h : ∃ n, n ≤ max_iter ∧ spec_escaped max_bound c n then Nat.find h else max_iter

/-! ### The intensity map and the PPM writer (lines 10-42)

The `float` arithmetic of `map_colour` is written over the rationals with a
rounding function `fl`: every `float` operation yields `fl` of the exact result,
and every conversion of an integer to `float` yields `fl` of the integer.  Reading
the arithmetic as exact means taking `fl := id`. -/

/-- Conversion of a `float` to `unsigned short` (line 14): the fractional part is
discarded (truncation toward zero).  For a truncated value outside `0 .. 65535`
the C conversion is undefined; the model keeps the low 16 bits, as the usual
conversion through a wider integer does. -/
def float_to_ushort (x : ℚ) : Nat :=
  Int.toNat ((if 0 ≤ x then ⌊x⌋ else ⌈x⌉) % 65536)

/-- Line 12: `normalised_index = 1 - ((float)index / (float)MAX_ITER)`. -/
def normalised_index (fl : ℚ → ℚ) (index : Nat) : ℚ :=
  fl (fl 1 - fl (fl (index : ℚ) / fl (MAX_ITER : ℚ)))

/-- The product `n * n * n * n * n * n * n` of line 14: six `float`
multiplications, taken from the left. -/
def product7 (fl : ℚ → ℚ) (n : ℚ) : ℚ :=
  fl (fl (fl (fl (fl (fl (n * n) * n) * n) * n) * n) * n)

/-- Line 14: `value = 65535 * (n * n * n * n * n * n * n)` with
`n = normalised_index`, converted to `unsigned short`.  This is `value` before
the byte swap. -/
def map_colour_value (fl : ℚ → ℚ) (index : Nat) : Nat :=
  float_to_ushort (fl (fl 65535 * product7 fl (normalised_index fl index)))

/-- Lines 17-19: `high = (value & 0xff00) >> 8; low = (value & 0x00ff) << 8;
value = high | low`, with `low` an `unsigned short`. -/
def flip_endian (value : Nat) : Nat :=
  ((value &&& 0xff00) >>> 8) ||| (((value &&& 0x00ff) <<< 8) % USHORT_MOD)

/-- The function `map_colour` (lines 10-24): the three entries `rgb[0]`, `rgb[1]`,
`rgb[2]` it stores. -/
def map_colour (fl : ℚ → ℚ) (index : Nat) : List Nat :=
  [flip_endian (map_colour_value fl index), flip_endian (map_colour_value fl index),
   flip_endian (map_colour_value fl index)]

/-- Byte order in which the host stores an `unsigned short`. -/
inductive Endian where
  | little : Endian
  | big : Endian

/-- The two bytes of an `unsigned short` in the order the host keeps them in
memory, which is the order `fwrite` emits them in. -/
def ushort_bytes (host : Endian) (x : Nat) : List Nat :=
  match host with
  | .little => [x % 256, x / 256 % 256]
  | .big => [x / 256 % 256, x % 256]

/-- Line 38: `fwrite(colour, 2, 3, fp)` after line 37 `map_colour(index, colour)`:
the six bytes emitted for a pixel whose cell holds `index`. -/
def pixel_bytes (fl : ℚ → ℚ) (host : Endian) (index : Nat) : List Nat :=
  (map_colour fl index).flatMap (ushort_bytes host)

/-- The characters `%d` prints for an `unsigned int` argument `x`: the argument is
read as an `int`, so a value of 2^31 or more comes out as the negative number
`x - 2^32`. -/
def printf_d (x : Nat) : String :=
  if x < 2147483648 then Nat.repr x else "-" ++ Nat.repr (UINT_MOD - x)

/-- The bytes of an ASCII string. -/
def ascii (str : String) : List Nat :=
  str.toList.map Char.toNat

/-- Line 32: `fprintf(fp, "P6\n%d %d\n65535\n", dimx, dimy)`. -/
def ppm_header (dimx dimy : Nat) : List Nat :=
  ascii ("P6\n" ++ printf_d dimx ++ " " ++ printf_d dimy ++ "\n65535\n")

/-- Lines 33-40: the two loops of `write_ppm`, appending the bytes of every pixel
to the stream.  The cell read is `img_data[i + j * dimx]`, the index computed in
`unsigned int`.  (`i` and `j` are `int` in the source and compared with the
`unsigned` sizes; the model counts them as naturals.) -/
def ppm_body (fl : ℚ → ℚ) (host : Endian) (dimx dimy : Nat) (img : Nat → Nat) : List Nat :=
  for_loop dimy (fun j out =>
    for_loop dimx (fun i out2 =>
      out2 ++ pixel_bytes fl host (img ((i + j * dimx) % UINT_MOD))) out) []

/-- The function `write_ppm` (lines 26-42) on a stream that opened: the bytes
written to the file. -/
def write_ppm (fl : ℚ → ℚ) (host : Endian) (dimx dimy : Nat) (img : Nat → Nat) : List Nat :=
  ppm_header dimx dimy ++ ppm_body fl host dimx dimy img

/-- What `fopen(filename, "wb")` returned (line 31): a null pointer when the file
cannot be opened, a stream on the emptied file otherwise. -/
inductive FopenResult where
  | null : FopenResult
  | stream : FopenResult

/-- How a call of `write_ppm` ends. -/
inductive CallOutcome where
  /-- The call returned and the file holds these bytes. -/
  | returned (file : List Nat) : CallOutcome
  /-- The call ended the program with this exit status. -/
  | exited (status : Nat) : CallOutcome
  /-- A library function was called with a null stream: undefined behaviour. -/
  | null_stream_used : CallOutcome

/-- The function `write_ppm` (lines 26-42) from the result of its `fopen`.
Nothing tests `fp` between line 31 and line 32, and no path of the function
calls `exit` or returns a status (it is `void`): with a null `fp` line 32 passes
the null pointer to `fprintf`; with a stream the bytes of `write_ppm` are
written and the stream is closed. -/
def write_ppm_call (fl : ℚ → ℚ) (host : Endian) (fp : FopenResult) (dimx dimy : Nat)
    (img : Nat → Nat) : CallOutcome :=
  match fp with
  | .null => .null_stream_used
  | .stream => .returned (write_ppm fl host dimx dimy img)

/-- The two bytes of a 16-bit value in big-endian order, as the PPM format wants
a sample: high byte, low byte. -/
def big_endian_sample (v : Nat) : List Nat :=
  [v >>> 8, v &&& 0xff]

/-! ## Theorems -/

section RenderTheorems

variable {α : Type} [Add α] [Sub α] [Mul α] [Div α] [NatCast α] [LT α]
  [∀ a b : α, Decidable (a < b)]

/-! ### Basic facts about one step and about schedules -/

theorem run_nil (p : RenderParams α) (s : RenderState α) : run p [] s = s := rfl

theorem run_cons (p : RenderParams α) (w : Nat) (ws : List Nat) (s : RenderState α) :
    run p (w :: ws) s = run p ws (core_step p w s) := rfl

theorem run_append (p : RenderParams α) (xs ys : List Nat) (s : RenderState α) :
    run p (xs ++ ys) s = run p ys (run p xs s) := by
  simp [run, List.foldl_append]

theorem core_step_pc_other (p : RenderParams α) (w w' : Nat) (s : RenderState α)
    (h : w' ≠ w) : (core_step p w s).pc w' = s.pc w' := by
  unfold core_step
  cases hpc : s.pc w with
  | exited => simp
  | claim =>
    by_cases hl : p.dimy ≤ s.line_num <;> simp [hl, Function.update_noteq h]
  | row j i c_real c_img =>
    by_cases hi : i < p.dimx <;> simp [hi, Function.update_noteq h]

theorem run_replicate_pc_other (p : RenderParams α) (w w' : Nat) (h : w' ≠ w) (k : Nat)
    (s : RenderState α) : (run p (List.replicate k w) s).pc w' = s.pc w' := by
  induction k generalizing s with
  | zero => rfl
  | succ k ih =>
    rw [List.replicate_succ, run_cons, ih, core_step_pc_other p w w' s h]

theorem core_step_exited (p : RenderParams α) (w w' : Nat) (s : RenderState α)
    (h : (s.pc w').isExited = true) : ((core_step p w s).pc w').isExited = true := by
  by_cases hw : w' = w
  · subst hw
    unfold core_step
    cases hpc : s.pc w' with
    | exited => simpa [hpc] using h
    | claim => rw [hpc] at h; simp [ThreadPc.isExited] at h
    | row j i c_real c_img => rw [hpc] at h; simp [ThreadPc.isExited] at h
  · rw [core_step_pc_other p w w' s hw]; exact h

/-! ### Every thread running alone reaches its `break` -/

theorem run_replicate_add (p : RenderParams α) (w a b : Nat) (s : RenderState α) :
    run p (List.replicate (a + b) w) s
      = run p (List.replicate b w) (run p (List.replicate a w) s) := by
  rw [List.replicate_add, run_append]

/-- A thread inside a row, running alone, comes back to the claim without
touching the cursor. -/
theorem run_alone_finishes_row (p : RenderParams α) (w : Nat) :
    ∀ (n : Nat) (s : RenderState α) (j i : Nat) (c_real c_img : α),
      s.pc w = .row j i c_real c_img → p.dimx - i = n →
      ∃ k, (run p (List.replicate k w) s).pc w = .claim ∧
           (run p (List.replicate k w) s).line_num = s.line_num := by
  intro n
  induction n with
  | zero =>
    intro s j i c_real c_img hpc hn
    refine ⟨1, ?_, ?_⟩
    · have hi : ¬ i < p.dimx := by omega
      simp [run, core_step, hpc, hi]
    · have hi : ¬ i < p.dimx := by omega
      simp [run, core_step, hpc, hi]
  | succ n ih =>
    intro s j i c_real c_img hpc hn
    have hi : i < p.dimx := by omega
    have hstep : (core_step p w s).pc w = .row j (i + 1) (c_real + p.increment) c_img := by
      simp [core_step, hpc, hi]
    have hline : (core_step p w s).line_num = s.line_num := by
      simp [core_step, hpc, hi]
    obtain ⟨k, hk1, hk2⟩ := ih (core_step p w s) j (i + 1) _ _ hstep (by omega)
    refine ⟨k + 1, ?_, ?_⟩
    · rw [List.replicate_succ, run_cons]; exact hk1
    · rw [List.replicate_succ, run_cons, hk2, hline]

/-- A thread at the claim, running alone, reaches its `break`: the cursor only
grows until it is `>= dimy`. -/
theorem run_alone_exits_from_claim (p : RenderParams α) (w : Nat) (hdimy : p.dimy < UINT_MOD) :
    ∀ (n : Nat) (s : RenderState α), s.pc w = .claim → p.dimy - s.line_num = n →
      ∃ k, ((run p (List.replicate k w) s).pc w).isExited = true := by
  intro n
  induction n with
  | zero =>
    intro s hpc hn
    refine ⟨1, ?_⟩
    have hl : p.dimy ≤ s.line_num := by omega
    simp [run, core_step, hpc, hl, ThreadPc.isExited]
  | succ n ih =>
    intro s hpc hn
    have hl : ¬ p.dimy ≤ s.line_num := by omega
    have hstep : (core_step p w s).pc w
        = .row s.line_num 0 p.minx (p.miny + p.increment * ((s.line_num : Nat) : α)) := by
      simp [core_step, hpc, hl]
    have hline : (core_step p w s).line_num = s.line_num + 1 := by
      have : (s.line_num + 1) % UINT_MOD = s.line_num + 1 :=
        Nat.mod_eq_of_lt (by omega)
      simp [core_step, hpc, hl, this]
    obtain ⟨k1, hk1, hk1l⟩ :=
      run_alone_finishes_row p w (p.dimx - 0) (core_step p w s) _ 0 _ _ hstep rfl
    obtain ⟨k2, hk2⟩ := ih (run p (List.replicate k1 w) (core_step p w s)) hk1
      (by rw [hk1l, hline]; omega)
    refine ⟨1 + (k1 + k2), ?_⟩
    rw [run_replicate_add, run_replicate_add]
    exact hk2

/-- A thread running alone reaches its `break`, whatever the state it starts in. -/
theorem run_alone_exits (p : RenderParams α) (w : Nat) (hdimy : p.dimy < UINT_MOD)
    (s : RenderState α) :
    ∃ k, ((run p (List.replicate k w) s).pc w).isExited = true := by
  cases hpc : s.pc w with
  | exited => exact ⟨0, by simp [run, hpc, ThreadPc.isExited]⟩
  | claim => exact run_alone_exits_from_claim p w hdimy _ s hpc rfl
  | row j i c_real c_img =>
    obtain ⟨k1, hk1, _⟩ := run_alone_finishes_row p w _ s j i c_real c_img hpc rfl
    obtain ⟨k2, hk2⟩ := run_alone_exits_from_claim p w hdimy _ _ hk1 rfl
    exact ⟨k1 + k2, by rw [run_replicate_add]; exact hk2⟩

theorem run_exited (p : RenderParams α) (w' : Nat) (sched : List Nat) (s : RenderState α)
    (h : (s.pc w').isExited = true) : ((run p sched s).pc w').isExited = true := by
  induction sched generalizing s with
  | nil => exact h
  | cons w ws ih => rw [run_cons]; exact ih _ (core_step_exited p w w' s h)

/-- From every state some schedule lets all the threads return: the join of
`mandelbrot_multi` is reached. -/
theorem exists_joined (p : RenderParams α) (hdimy : p.dimy < UINT_MOD) (num_threads : Nat)
    (s : RenderState α) : ∃ sched, joined num_threads (run p sched s) := by
  induction num_threads with
  | zero => exact ⟨[], fun w hw => absurd hw (Nat.not_lt_zero w)⟩
  | succ n ih =>
    obtain ⟨sched, hs⟩ := ih
    obtain ⟨k, hk⟩ := run_alone_exits p n hdimy (run p sched s)
    refine ⟨sched ++ List.replicate k n, ?_⟩
    intro w hw
    rw [run_append]
    by_cases hwn : w = n
    · subst hwn; exact hk
    · exact run_exited p w _ _ (hs w (by omega))

/-! ### Counting the threads that have returned -/

theorem exited_count_update_same (W : Nat) (pc : Nat → ThreadPc α) (w : Nat) (v : ThreadPc α)
    (h : v.isExited = (pc w).isExited) :
    exited_count W (Function.update pc w v) = exited_count W pc := by
  unfold exited_count
  congr 1
  ext x
  simp only [Finset.mem_filter, Finset.mem_range]
  by_cases hx : x = w
  · subst hx; simp [h]
  · simp [Function.update_noteq hx]

theorem exited_count_update_exit (W : Nat) (pc : Nat → ThreadPc α) (w : Nat) (hw : w < W)
    (h : (pc w).isExited = false) :
    exited_count W (Function.update pc w .exited) = exited_count W pc + 1 := by
  unfold exited_count
  have hnot : w ∉ (Finset.range W).filter (fun x => (pc x).isExited = true) := by
    simp [h]
  rw [← Finset.card_insert_of_not_mem hnot]
  congr 1
  ext x
  simp only [Finset.mem_filter, Finset.mem_range, Finset.mem_insert]
  by_cases hx : x = w
  · subst hx; simp [ThreadPc.isExited, hw]
  · simp [Function.update_noteq hx, hx]

theorem exited_count_lt (W : Nat) (pc : Nat → ThreadPc α) (w : Nat) (hw : w < W)
    (h : (pc w).isExited = false) : exited_count W pc < W := by
  unfold exited_count
  have hsub : (Finset.range W).filter (fun x => (pc x).isExited = true)
      ⊆ (Finset.range W).erase w := by
    intro x hx
    simp only [Finset.mem_filter, Finset.mem_range] at hx
    simp only [Finset.mem_erase, Finset.mem_range]
    refine ⟨?_, hx.1⟩
    rintro rfl
    rw [h] at hx
    exact absurd hx.2 (by simp)
  have h1 := Finset.card_le_card hsub
  rw [Finset.card_erase_of_mem (Finset.mem_range.mpr hw), Finset.card_range] at h1
  omega

theorem exited_count_joined (W : Nat) (pc : Nat → ThreadPc α)
    (h : ∀ w, w < W → (pc w).isExited = true) : exited_count W pc = W := by
  unfold exited_count
  rw [Finset.filter_true_of_mem, Finset.card_range]
  intro x hx
  exact h x (Finset.mem_range.mp hx)

/-! ### The invariant of the row scheduler -/

theorem schedInv_init (p : RenderParams α) (W : Nat) :
    SchedInv p W (mandelbrot_multi_init W : RenderState α) := by
  have hc : exited_count W (mandelbrot_multi_init W : RenderState α).pc = 0 := by
    unfold exited_count
    rw [Finset.card_eq_zero, Finset.filter_eq_empty_iff]
    intro x hx
    have hx2 : x < W := Finset.mem_range.mp hx
    simp [mandelbrot_multi_init, hx2, ThreadPc.isExited]
  refine ⟨?_, ?_, ?_, ?_, ?_⟩
  · intro w hw
    have : ¬ w < W := by omega
    simp [mandelbrot_multi_init, this, ThreadPc.isExited]
  · simp [claimed_rows, mandelbrot_multi_init]
  · simp [mandelbrot_multi_init]
  · rw [hc]; intro h; omega
  · rw [hc]; simp [mandelbrot_multi_init]

theorem schedInv_step (p : RenderParams α) (W : Nat) (hsz : p.dimy + W ≤ UINT_MOD)
    (w : Nat) (s : RenderState α) (inv : SchedInv p W s) : SchedInv p W (core_step p w s) := by
  obtain ⟨hout, hrows, hle, hall, hcur⟩ := inv
  cases hpc : s.pc w with
  | exited =>
    have : core_step p w s = s := by simp [core_step, hpc]
    rw [this]; exact ⟨hout, hrows, hle, hall, hcur⟩
  | row j i c_real c_img =>
    have hne : (s.pc w).isExited = false := by simp [hpc, ThreadPc.isExited]
    by_cases hi : i < p.dimx
    · have hcnt : exited_count W (core_step p w s).pc = exited_count W s.pc := by
        simp only [core_step, hpc, hi, if_true]
        exact exited_count_update_same W s.pc w _ (by simp [hpc, ThreadPc.isExited])
      refine ⟨?_, ?_, ?_, ?_, ?_⟩
      · intro w' hw'
        have hw'' : w' ≠ w := by
          rintro rfl
          have := hout w' hw'
          rw [hne] at this; exact absurd this (by simp)
        rw [core_step_pc_other p w w' s hw'']; exact hout w' hw'
      · simpa [core_step, hpc, hi, claimed_rows] using hrows
      · simpa [core_step, hpc, hi] using hle
      · rw [hcnt]; simpa [core_step, hpc, hi] using hall
      · rw [hcnt]; simpa [core_step, hpc, hi] using hcur
    · have hcnt : exited_count W (core_step p w s).pc = exited_count W s.pc := by
        simp only [core_step, hpc, hi, if_false]
        exact exited_count_update_same W s.pc w _ (by simp [hpc, ThreadPc.isExited])
      refine ⟨?_, ?_, ?_, ?_, ?_⟩
      · intro w' hw'
        have hw'' : w' ≠ w := by
          rintro rfl
          have := hout w' hw'
          rw [hne] at this; exact absurd this (by simp)
        rw [core_step_pc_other p w w' s hw'']; exact hout w' hw'
      · simpa [core_step, hpc, hi, claimed_rows] using hrows
      · simpa [core_step, hpc, hi] using hle
      · rw [hcnt]; simpa [core_step, hpc, hi] using hall
      · rw [hcnt]; simpa [core_step, hpc, hi] using hcur
  | claim =>
    have hne : (s.pc w).isExited = false := by simp [hpc, ThreadPc.isExited]
    have hwW : w < W := by
      by_contra hcon
      have := hout w (by omega)
      rw [hne] at this; exact absurd this (by simp)
    have hd : exited_count W s.pc < W := exited_count_lt W s.pc w hwW hne
    have hother : ∀ w', W ≤ w' → ((core_step p w s).pc w').isExited = true := by
      intro w' hw'
      rw [core_step_pc_other p w w' s (by omega)]; exact hout w' hw'
    have hcur2 : s.line_num = s.claims.length + exited_count W s.pc := by
      rw [hcur]; exact Nat.mod_eq_of_lt (by omega)
    by_cases hl : p.dimy ≤ s.line_num
    · have hcnt : exited_count W (core_step p w s).pc = exited_count W s.pc + 1 := by
        simp only [core_step, hpc, hl, if_true]
        exact exited_count_update_exit W s.pc w hwW hne
      have hn : s.claims.length = p.dimy := by
        by_cases hd0 : 1 ≤ exited_count W s.pc
        · exact hall hd0
        · omega
      refine ⟨hother, ?_, ?_, ?_, ?_⟩
      · simpa [core_step, hpc, hl, claimed_rows] using hrows
      · simpa [core_step, hpc, hl] using hle
      · intro _; simpa [core_step, hpc, hl] using hn
      · rw [hcnt]
        simp only [core_step, hpc, hl, if_true]
        rw [hcur2, Nat.add_assoc]
    · have hd0 : exited_count W s.pc = 0 := by
        by_contra hcon
        have := hall (by omega)
        omega
      have hcnt : exited_count W (core_step p w s).pc = exited_count W s.pc := by
        simp only [core_step, hpc, hl, if_false]
        exact exited_count_update_same W s.pc w _ (by simp [hpc, ThreadPc.isExited])
      have hline : s.line_num = s.claims.length := by omega
      refine ⟨hother, ?_, ?_, ?_, ?_⟩
      · simp only [core_step, hpc, hl, if_false, claimed_rows, List.map_cons,
          List.length_cons]
        rw [List.range_succ, List.reverse_append, hline]
        simp only [List.reverse_cons, List.reverse_nil, List.nil_append, List.singleton_append]
        congr 1
      · simp only [core_step, hpc, hl, if_false, List.length_cons]; omega
      · rw [hcnt, hd0]; intro h; omega
      · rw [hcnt, hd0]
        simp only [core_step, hpc, hl, if_false, List.length_cons]
        rw [hline]

theorem schedInv_run (p : RenderParams α) (W : Nat) (hsz : p.dimy + W ≤ UINT_MOD)
    (sched : List Nat) (s : RenderState α) (inv : SchedInv p W s) :
    SchedInv p W (run p sched s) := by
  induction sched generalizing s with
  | nil => exact inv
  | cons w ws ih => rw [run_cons]; exact ih _ (schedInv_step p W hsz w s inv)

theorem count_reverse_range (n r : Nat) :
    (List.range n).reverse.count r = if r < n then 1 else 0 := by
  rw [List.count_reverse]
  by_cases h : r < n
  · rw [if_pos h]
    exact List.count_eq_one_of_mem (List.nodup_range n) (List.mem_range.mpr h)
  · rw [if_neg h]
    exact List.count_eq_zero_of_not_mem (fun hm => h (List.mem_range.mp hm))

/-- C1. Row scheduler coverage: from `line_num = 0`, with `W >= 1` threads and
`dimy + W <= 2^32`, some schedule lets every thread return, and for every
schedule after which every thread has returned each row below `dimy` has been
handed out by exactly one successful claim and no other row has been handed out. -/
theorem row_scheduler_coverage (p : RenderParams α) (W : Nat) (hW : 1 ≤ W)
    (hsz : p.dimy + W ≤ 2 ^ 32) :
    (∃ sched, joined W (run p sched (mandelbrot_multi_init W))) ∧
    ∀ sched, joined W (run p sched (mandelbrot_multi_init W)) →
      ∀ r, (claimed_rows (run p sched (mandelbrot_multi_init W))).count r
        = if r < p.dimy then 1 else 0 := by
  have hsz2 : p.dimy + W ≤ UINT_MOD := by simpa [UINT_MOD] using hsz
  refine ⟨exists_joined p (by omega) W _, ?_⟩
  intro sched hj r
  have inv := schedInv_run p W hsz2 sched _ (schedInv_init p W)
  have hd := exited_count_joined W _ hj
  have hn := inv.all_out (by omega)
  rw [inv.rows, hn]
  exact count_reverse_range p.dimy r

/-- Witness for C1: three rows, two threads, exact arithmetic. -/
theorem row_scheduler_coverage_witness :
    (1 ≤ 2 ∧ 3 + 2 ≤ 2 ^ 32) ∧
    ((∃ sched, joined 2 (run (mandelbrot_multi_params (-2 : ℚ) (-1) 3 4 3 10) sched
        (mandelbrot_multi_init 2))) ∧
     ∀ sched, joined 2 (run (mandelbrot_multi_params (-2 : ℚ) (-1) 3 4 3 10) sched
        (mandelbrot_multi_init 2)) →
      ∀ r, (claimed_rows (run (mandelbrot_multi_params (-2 : ℚ) (-1) 3 4 3 10) sched
        (mandelbrot_multi_init 2))).count r = if r < 3 then 1 else 0) :=
  ⟨⟨by decide, by norm_num⟩,
   row_scheduler_coverage (mandelbrot_multi_params (-2 : ℚ) (-1) 3 4 3 10) 2 (by decide)
     (by norm_num [mandelbrot_multi_params])⟩

/-! ### The invariant of the pixel loops -/

theorem coreWriteOK_mono (p : RenderParams α) (c1 c2 : List (Nat × Nat))
    (h : ∀ x, x ∈ c1 → x ∈ c2) (e : PixelWrite α) (he : CoreWriteOK p c1 e) :
    CoreWriteOK p c2 e :=
  ⟨he.i_lt, he.j_lt, he.c_real_eq, he.c_img_eq, he.cell_eq, he.value_eq, h _ he.claimed⟩

theorem coreInv_init (p : RenderParams α) (W : Nat) :
    CoreInv p (mandelbrot_multi_init W : RenderState α) := by
  refine ⟨?_, ?_⟩
  · intro w j i c_real c_img h
    simp only [mandelbrot_multi_init] at h
    split at h <;> cases h
  · intro e he
    simp [mandelbrot_multi_init] at he

theorem coreInv_step (p : RenderParams α) (w : Nat) (s : RenderState α) (inv : CoreInv p s) :
    CoreInv p (core_step p w s) := by
  obtain ⟨hpcs, hst⟩ := inv
  cases hpc : s.pc w with
  | exited =>
    have : core_step p w s = s := by simp [core_step, hpc]
    rw [this]; exact ⟨hpcs, hst⟩
  | claim =>
    by_cases hl : p.dimy ≤ s.line_num
    · refine ⟨?_, ?_⟩
      · intro w' j i c_real c_img h
        simp only [core_step, hpc, hl, if_true] at h
        by_cases hw : w' = w
        · subst hw; simp at h
        · rw [Function.update_noteq hw] at h
          simpa [core_step, hpc, hl] using hpcs w' j i c_real c_img h
      · intro e he
        simp only [core_step, hpc, hl, if_true] at he ⊢
        exact hst e he
    · refine ⟨?_, ?_⟩
      · intro w' j i c_real c_img h
        simp only [core_step, hpc, hl, if_false] at h ⊢
        by_cases hw : w' = w
        · subst hw
          simp only [Function.update_same, ThreadPc.row.injEq] at h
          obtain ⟨h1, h2, h3, h4⟩ := h
          subst h1 h2 h3 h4
          exact ⟨by omega, by omega, rfl, rfl, List.mem_cons_self _ _⟩
        · rw [Function.update_noteq hw] at h
          obtain ⟨a, b, c, d, e⟩ := hpcs w' j i c_real c_img h
          exact ⟨a, b, c, d, List.mem_cons_of_mem _ e⟩
      · intro e he
        simp only [core_step, hpc, hl, if_false] at he ⊢
        exact coreWriteOK_mono p _ _ (fun x hx => List.mem_cons_of_mem _ hx) e (hst e he)
  | row j i c_real c_img =>
    obtain ⟨hj, hi', hcr, hci, hcl⟩ := hpcs w j i c_real c_img hpc
    by_cases hi : i < p.dimx
    · refine ⟨?_, ?_⟩
      · intro w' j' i' c_real' c_img' h
        simp only [core_step, hpc, hi, if_true] at h ⊢
        by_cases hw : w' = w
        · subst hw
          simp only [Function.update_same, ThreadPc.row.injEq] at h
          obtain ⟨h1, h2, h3, h4⟩ := h
          subst h1 h2 h3 h4
          refine ⟨hj, by omega, ?_, hci, hcl⟩
          rw [Function.iterate_succ_apply', ← hcr]
        · rw [Function.update_noteq hw] at h
          exact hpcs w' j' i' c_real' c_img' h
      · intro e he
        simp only [core_step, hpc, hi, if_true, List.mem_cons] at he ⊢
        rcases he with rfl | he
        · exact ⟨hi, hj, hcr, hci, rfl, rfl, hcl⟩
        · exact hst e he
    · refine ⟨?_, ?_⟩
      · intro w' j' i' c_real' c_img' h
        simp only [core_step, hpc, hi, if_false] at h ⊢
        by_cases hw : w' = w
        · subst hw; simp at h
        · rw [Function.update_noteq hw] at h
          exact hpcs w' j' i' c_real' c_img' h
      · intro e he
        simp only [core_step, hpc, hi, if_false] at he ⊢
        exact hst e he

theorem coreInv_run (p : RenderParams α) (sched : List Nat) (s : RenderState α)
    (inv : CoreInv p s) : CoreInv p (run p sched s) := by
  induction sched generalizing s with
  | nil => exact inv
  | cons w ws ih => rw [run_cons]; exact ih _ (coreInv_step p w s inv)

/-! ### The single threaded render in closed form -/

theorem for_loop_zero {σ : Type} (body : Nat → σ → σ) (init : σ) :
    for_loop 0 body init = init := rfl

theorem for_loop_succ {σ : Type} (n : Nat) (body : Nat → σ → σ) (init : σ) :
    for_loop (n + 1) body init = body n (for_loop n body init) := by
  simp [for_loop, List.range_succ, List.foldl_append]

theorem mandelbrot_inner_loop (increment : α) (dimx max_iter j : Nat) (minx miny : α)
    (ws : List (PixelWrite α)) (c0 : α) (n : Nat) :
    for_loop n (mandelbrot_pixel increment dimx max_iter j)
        { c_real := minx, c_img := (fun c => c + increment)^[j] miny, writes := ws }
      = { c_real := (fun c => c + increment)^[n] minx,
          c_img := (fun c => c + increment)^[j] miny,
          writes := (List.range n).reverse.map
              (mandelbrot_write minx miny increment dimx max_iter j) ++ ws } := by
  induction n with
  | zero => simp [for_loop_zero]
  | succ n ih =>
    rw [for_loop_succ, ih]
    simp [mandelbrot_pixel, mandelbrot_write, List.range_succ, Function.iterate_succ_apply']

theorem mandelbrot_outer_loop (minx miny increment : α) (dimx max_iter : Nat) (c0 : α)
    (n : Nat) :
    for_loop n (mandelbrot_row minx increment dimx max_iter)
        { c_real := c0, c_img := miny, writes := [] }
      = { c_real := if n = 0 then c0 else (fun c => c + increment)^[dimx] minx,
          c_img := (fun c => c + increment)^[n] miny,
          writes := (List.range n).reverse.flatMap (fun j => (List.range dimx).reverse.map
              (mandelbrot_write minx miny increment dimx max_iter j)) } := by
  induction n with
  | zero => simp [for_loop_zero]
  | succ n ih =>
    rw [for_loop_succ, ih]
    simp only [mandelbrot_row]
    rw [mandelbrot_inner_loop increment dimx max_iter n minx miny _ c0 dimx]
    simp [List.range_succ, Function.iterate_succ_apply']

/-- The stores of `mandelbrot`, most recent first: rows from the last to the
first, and inside a row columns from the last to the first. -/
theorem mandelbrot_eq (minx miny xsize : α) (dimx dimy max_iter : Nat) :
    mandelbrot minx miny xsize dimx dimy max_iter
      = (List.range dimy).reverse.flatMap (fun j => (List.range dimx).reverse.map
          (mandelbrot_write minx miny (xsize / ((dimx : Nat) : α)) dimx max_iter j)) := by
  unfold mandelbrot
  rw [mandelbrot_outer_loop]

/-! ### The loop counter stays within the cap -/

theorem escape_loop_le (max_iter : Nat) (c_real c_img : α) :
    ∀ (fuel : Nat) (z_real z_img : α) (iter : Nat), iter ≤ max_iter →
      escape_loop max_iter c_real c_img fuel z_real z_img iter ≤ max_iter := by
  intro fuel
  induction fuel with
  | zero => intro z_real z_img iter h; simpa [escape_loop] using h
  | succ fuel ih =>
    intro z_real z_img iter h
    simp only [escape_loop]
    split
    · rename_i hg; exact ih _ _ _ (by omega)
    · exact h

theorem escape_iter_le (max_iter : Nat) (c_real c_img : α) :
    escape_iter max_iter c_real c_img ≤ max_iter :=
  escape_loop_le max_iter c_real c_img max_iter c_real c_img 0 (Nat.zero_le _)

/-- The bound on the number of turns is never what stops the loop: with
`max_iter - iter` turns allowed or with any larger number the loop leaves the
same count. -/
theorem escape_loop_fuel (max_iter : Nat) (c_real c_img : α) :
    ∀ (n : Nat) (z_real z_img : α) (iter extra : Nat), max_iter - iter = n →
      escape_loop max_iter c_real c_img (n + extra) z_real z_img iter
        = escape_loop max_iter c_real c_img n z_real z_img iter := by
  intro n
  induction n with
  | zero =>
    intro z_real z_img iter extra h
    cases extra with
    | zero => rfl
    | succ extra =>
      have : ¬ iter < max_iter := by omega
      simp [escape_loop, this]
  | succ n ih =>
    intro z_real z_img iter extra h
    have : n + 1 + extra = (n + extra) + 1 := by omega
    rw [this]
    simp only [escape_loop]
    split
    · exact ih _ _ _ _ (by omega)
    · rfl

theorem core_pixel_eq (max_iter : Nat) (hmax : max_iter < USHORT_MOD) (c_real c_img : α) :
    core_pixel max_iter c_real c_img = escape_iter max_iter c_real c_img := by
  unfold core_pixel
  exact Nat.mod_eq_of_lt (lt_of_le_of_lt (escape_iter_le max_iter c_real c_img) hmax)

theorem mem_mandelbrot (minx miny xsize : α) (dimx dimy max_iter : Nat) (e : PixelWrite α) :
    e ∈ mandelbrot minx miny xsize dimx dimy max_iter ↔
      ∃ j, j < dimy ∧ ∃ i, i < dimx ∧
        e = mandelbrot_write minx miny (xsize / ((dimx : Nat) : α)) dimx max_iter j i := by
  rw [mandelbrot_eq]
  simp only [List.mem_flatMap, List.mem_reverse, List.mem_range, List.mem_map]
  constructor
  · rintro ⟨j, hj, i, hi, rfl⟩; exact ⟨j, hj, i, hi, rfl⟩
  · rintro ⟨j, hj, i, hi, rfl⟩; exact ⟨j, hj, i, hi, rfl⟩

/-! ### Single steps, as equations -/

theorem core_step_claim_ok (p : RenderParams α) (w : Nat) (s : RenderState α)
    (h : s.pc w = .claim) (hl : s.line_num < p.dimy) :
    core_step p w s =
      { s with line_num := (s.line_num + 1) % UINT_MOD,
               pc := Function.update s.pc w
                 (.row s.line_num 0 p.minx (p.miny + p.increment * ((s.line_num : Nat) : α))),
               claims := (w, s.line_num) :: s.claims } := by
  simp [core_step, h, not_le.mpr hl]

theorem core_step_claim_fail (p : RenderParams α) (w : Nat) (s : RenderState α)
    (h : s.pc w = .claim) (hl : p.dimy ≤ s.line_num) :
    core_step p w s =
      { s with line_num := (s.line_num + 1) % UINT_MOD,
               pc := Function.update s.pc w .exited } := by
  simp [core_step, h, hl]

theorem core_step_store (p : RenderParams α) (w : Nat) (s : RenderState α) (j i : Nat)
    (c_real c_img : α) (h : s.pc w = .row j i c_real c_img) (hi : i < p.dimx) :
    core_step p w s =
      { s with pc := Function.update s.pc w (.row j (i + 1) (c_real + p.increment) c_img),
               writes := { worker := w, j := j, i := i, c_real := c_real, c_img := c_img,
                           cell := (i + j * p.dimx) % UINT_MOD,
                           value := core_pixel p.max_iter c_real c_img } :: s.writes } := by
  simp [core_step, h, hi]

theorem core_step_row_end (p : RenderParams α) (w : Nat) (s : RenderState α) (j i : Nat)
    (c_real c_img : α) (h : s.pc w = .row j i c_real c_img) (hi : p.dimx ≤ i) :
    core_step p w s = { s with pc := Function.update s.pc w .claim } := by
  simp [core_step, h, not_lt.mpr hi]

/-! ### Stores are never undone -/

theorem core_step_writes_suffix (p : RenderParams α) (w : Nat) (s : RenderState α) :
    s.writes <:+ (core_step p w s).writes := by
  unfold core_step
  cases hpc : s.pc w with
  | exited => exact List.suffix_refl _
  | claim => by_cases hl : p.dimy ≤ s.line_num <;> simp [hl]
  | row j i c_real c_img =>
    by_cases hi : i < p.dimx
    · simp only [hi, if_true]; exact List.suffix_cons _ _
    · simp [hi]

theorem run_writes_suffix (p : RenderParams α) (sched : List Nat) (s : RenderState α) :
    s.writes <:+ (run p sched s).writes := by
  induction sched generalizing s with
  | nil => exact List.suffix_refl _
  | cons w ws ih =>
    rw [run_cons]
    exact List.IsSuffix.trans (core_step_writes_suffix p w s) (ih _)

theorem store_count_mono (l1 l2 : List (PixelWrite α)) (h : l1 <:+ l2) (k : Nat) :
    store_count l1 k ≤ store_count l2 k :=
  List.Sublist.countP_le _ h.sublist

theorem reach_trans (p : RenderParams α) (s t u : RenderState α) (h1 : Reach p s t)
    (h2 : Reach p t u) : Reach p s u := by
  obtain ⟨a, ha⟩ := h1
  obtain ⟨b, hb⟩ := h2
  exact ⟨a ++ b, by rw [run_append, ha, hb]⟩

/-- A thread at the claim, running alone while the cursor is below `dimy`, takes
every remaining row and is back at the claim with the cursor at `dimy`. -/
theorem run_alone_to_cursor (p : RenderParams α) (w : Nat) (hdimy : p.dimy < UINT_MOD) :
    ∀ (n : Nat) (s : RenderState α), s.pc w = .claim → s.line_num ≤ p.dimy →
      p.dimy - s.line_num = n →
      ∃ k, (run p (List.replicate k w) s).pc w = .claim ∧
           (run p (List.replicate k w) s).line_num = p.dimy := by
  intro n
  induction n with
  | zero =>
    intro s hpc hle hn
    exact ⟨0, hpc, by simp only [List.replicate_zero, run_nil]; omega⟩
  | succ n ih =>
    intro s hpc hle hn
    have hl : s.line_num < p.dimy := by omega
    have hs1 := core_step_claim_ok p w s hpc hl
    have hstep : (core_step p w s).pc w
        = .row s.line_num 0 p.minx (p.miny + p.increment * ((s.line_num : Nat) : α)) := by
      rw [hs1]; simp
    have hline : (core_step p w s).line_num = s.line_num + 1 := by
      rw [hs1]; exact Nat.mod_eq_of_lt (by omega)
    obtain ⟨k1, hk1, hk1l⟩ :=
      run_alone_finishes_row p w (p.dimx - 0) (core_step p w s) _ 0 _ _ hstep rfl
    obtain ⟨k2, hk2, hk2l⟩ := ih (run p (List.replicate k1 w) (core_step p w s)) hk1
      (by rw [hk1l, hline]; omega) (by rw [hk1l, hline]; omega)
    refine ⟨1 + (k1 + k2), ?_, ?_⟩
    · rw [run_replicate_add, run_replicate_add]; exact hk2
    · rw [run_replicate_add, run_replicate_add]; exact hk2l

/-! ### The cursor wraps when `dimy + num_threads` exceeds 2^32 -/

theorem store_count_cons_hit (e : PixelWrite α) (l : List (PixelWrite α)) (k : Nat)
    (h : e.cell = k) : store_count (e :: l) k = store_count l k + 1 := by
  unfold store_count
  rw [List.countP_cons_of_pos]
  simpa using h

/-- When `dimy = 2^32 - 1` and two threads run, the failed claim of one thread
wraps the cursor to 0 and the other thread is handed row 0 a second time: cell 0
is stored twice. -/
theorem cursor_wrap_stores_twice (p : RenderParams α) (hx : 0 < p.dimx) (hy : 0 < p.dimy)
    (hwrap : p.dimy + 1 = UINT_MOD) :
    ∃ sched, joined 2 (run p sched (mandelbrot_multi_init 2)) ∧
      2 ≤ store_count (run p sched (mandelbrot_multi_init 2)).writes 0 := by
  have hM : (1 : Nat) < UINT_MOD := by unfold UINT_MOD; omega
  have hdimy : p.dimy < UINT_MOD := by omega
  -- thread 0 claims row 0
  have h0a : (mandelbrot_multi_init 2 : RenderState α).pc 0 = .claim := by
    simp [mandelbrot_multi_init]
  have h0b : (mandelbrot_multi_init 2 : RenderState α).pc 1 = .claim := by
    simp [mandelbrot_multi_init]
  have h0l : (mandelbrot_multi_init 2 : RenderState α).line_num = 0 := rfl
  have e1 := core_step_claim_ok p 0 (mandelbrot_multi_init 2) h0a (by rw [h0l]; exact hy)
  generalize hs1 : core_step p 0 (mandelbrot_multi_init 2 : RenderState α) = s1 at e1
  have h1a : s1.pc 0 = .row 0 0 p.minx (p.miny + p.increment * ((0 : Nat) : α)) := by
    rw [e1]; simp [h0l]
  have h1b : s1.pc 1 = .claim := by
    rw [← hs1, core_step_pc_other p 0 1 _ (by decide)]; exact h0b
  have h1l : s1.line_num = 1 := by
    rw [e1]; simp only [h0l]; exact Nat.mod_eq_of_lt hM
  -- and stores pixel 0 of row 0 into cell 0
  have e2 := core_step_store p 0 s1 0 0 _ _ h1a hx
  generalize hs2 : core_step p 0 s1 = s2 at e2
  have h2a : s2.pc 0 = .row 0 (0 + 1) (p.minx + p.increment)
      (p.miny + p.increment * ((0 : Nat) : α)) := by
    rw [e2]; simp
  have h2b : s2.pc 1 = .claim := by
    rw [← hs2, core_step_pc_other p 0 1 _ (by decide)]; exact h1b
  have h2l : s2.line_num = 1 := by rw [e2]; exact h1l
  have h2c : 1 ≤ store_count s2.writes 0 := by
    rw [e2]
    simp only
    rw [store_count_cons_hit _ _ 0 (by simp)]
    omega
  -- thread 0 finishes row 0 and takes every other row
  obtain ⟨k3, h3a, h3l⟩ := run_alone_finishes_row p 0 _ s2 _ _ _ _ h2a rfl
  generalize hs3 : run p (List.replicate k3 0) s2 = s3 at h3a h3l
  obtain ⟨k4, h4a, h4l⟩ := run_alone_to_cursor p 0 hdimy _ s3 h3a
    (by rw [h3l, h2l]; omega) rfl
  generalize hs4 : run p (List.replicate k4 0) s3 = s4 at h4a h4l
  have h4b : s4.pc 1 = .claim := by
    rw [← hs4, run_replicate_pc_other p 0 1 (by decide), ← hs3,
      run_replicate_pc_other p 0 1 (by decide)]
    exact h2b
  have h4c : 1 ≤ store_count s4.writes 0 := by
    have a := store_count_mono _ _ (run_writes_suffix p (List.replicate k3 0) s2) 0
    have b := store_count_mono _ _ (run_writes_suffix p (List.replicate k4 0) s3) 0
    rw [hs3] at a
    rw [hs4] at b
    omega
  -- thread 1 fails its claim: the cursor wraps to 0
  have e5 := core_step_claim_fail p 1 s4 h4b (by omega)
  generalize hs5 : core_step p 1 s4 = s5 at e5
  have h5a : s5.pc 0 = .claim := by
    rw [← hs5, core_step_pc_other p 1 0 _ (by decide)]; exact h4a
  have h5l : s5.line_num = 0 := by
    rw [e5]; simp only [h4l, hwrap]; exact Nat.mod_self _
  have h5c : 1 ≤ store_count s5.writes 0 := by rw [e5]; exact h4c
  -- thread 0 is handed row 0 again
  have e6 := core_step_claim_ok p 0 s5 h5a (by omega)
  generalize hs6 : core_step p 0 s5 = s6 at e6
  have h6a : s6.pc 0 = .row 0 0 p.minx (p.miny + p.increment * ((0 : Nat) : α)) := by
    rw [e6]; simp [h5l]
  have h6c : 1 ≤ store_count s6.writes 0 := by rw [e6]; exact h5c
  have e7 := core_step_store p 0 s6 0 0 _ _ h6a hx
  generalize hs7 : core_step p 0 s6 = s7 at e7
  have h7c : 2 ≤ store_count s7.writes 0 := by
    rw [e7]
    simp only
    rw [store_count_cons_hit _ _ 0 (by simp)]
    omega
  -- and the render runs on to the join
  obtain ⟨sched8, h8⟩ := exists_joined p hdimy 2 s7
  have h8c := store_count_mono _ _ (run_writes_suffix p sched8 s7) 0
  have hreach : Reach p (mandelbrot_multi_init 2) s7 := by
    refine reach_trans p _ s1 _ ⟨[0], hs1⟩ ?_
    refine reach_trans p _ s2 _ ⟨[0], hs2⟩ ?_
    refine reach_trans p _ s3 _ ⟨_, hs3⟩ ?_
    refine reach_trans p _ s4 _ ⟨_, hs4⟩ ?_
    refine reach_trans p _ s5 _ ⟨[1], hs5⟩ ?_
    refine reach_trans p _ s6 _ ⟨[0], hs6⟩ ?_
    exact ⟨[0], hs7⟩
  obtain ⟨sched7, h7⟩ := hreach
  refine ⟨sched7 ++ sched8, ?_, ?_⟩
  · rw [run_append, h7]; exact h8
  · rw [run_append, h7]; omega

/-! ### A thread running a row alone, in closed form -/

theorem run_row_segment (p : RenderParams α) (w j : Nat) (c_img : α) :
    ∀ (n : Nat) (s : RenderState α) (i : Nat) (c_real : α),
      s.pc w = .row j i c_real c_img → i + n ≤ p.dimx →
      run p (List.replicate n w) s =
        { s with pc := Function.update s.pc w
                   (.row j (i + n) ((fun c => c + p.increment)^[n] c_real) c_img),
                 writes := row_writes p w j c_img i c_real n ++ s.writes } := by
  intro n
  induction n with
  | zero =>
    intro s i c_real hpc hn
    simp only [List.replicate_zero, run_nil, Nat.add_zero, Function.iterate_zero, id_eq,
      row_writes, List.nil_append]
    rw [← hpc, Function.update_eq_self]
  | succ n ih =>
    intro s i c_real hpc hn
    rw [List.replicate_succ, run_cons, core_step_store p w s j i c_real c_img hpc (by omega)]
    rw [ih _ (i + 1) (c_real + p.increment) (by simp) (by omega)]
    simp only [Function.update_idem, row_writes, List.append_assoc, List.singleton_append,
      Function.iterate_succ, Function.comp_apply]
    have : i + 1 + n = i + (n + 1) := by omega
    rw [this]

/-- A thread at the claim with the cursor below `dimy`, running alone for
`dimx + 2` steps, claims the row under the cursor, stores its `dimx` pixels and
is back at the claim. -/
theorem run_claim_row (p : RenderParams α) (w : Nat) (s : RenderState α)
    (hpc : s.pc w = .claim) (hl : s.line_num < p.dimy) (hM : s.line_num + 1 < UINT_MOD) :
    run p (List.replicate (p.dimx + 2) w) s =
      { line_num := s.line_num + 1,
        pc := Function.update s.pc w .claim,
        claims := (w, s.line_num) :: s.claims,
        writes := row_writes p w s.line_num (p.miny + p.increment * ((s.line_num : Nat) : α))
                    0 p.minx p.dimx ++ s.writes } := by
  have h2 : p.dimx + 2 = 1 + (p.dimx + 1) := by omega
  rw [h2, run_replicate_add, run_replicate_add]
  have e1 : run p (List.replicate 1 w) s = core_step p w s := rfl
  rw [e1, core_step_claim_ok p w s hpc hl]
  rw [run_row_segment p w s.line_num (p.miny + p.increment * ((s.line_num : Nat) : α))
    p.dimx _ 0 p.minx (by simp) (by omega)]
  have e2 : ∀ t : RenderState α, run p (List.replicate 1 w) t = core_step p w t := fun _ => rfl
  rw [e2, core_step_row_end p w _ s.line_num (0 + p.dimx)
    ((fun c => c + p.increment)^[p.dimx] p.minx)
    (p.miny + p.increment * ((s.line_num : Nat) : α)) (by simp) (by omega)]
  simp only [Function.update_idem, Nat.mod_eq_of_lt hM]

theorem mem_row_writes (p : RenderParams α) (w j : Nat) (c_img : α) (e : PixelWrite α) :
    ∀ (n i : Nat) (c_real : α), e ∈ row_writes p w j c_img i c_real n →
      ∃ k, i ≤ k ∧ k < i + n ∧ e.cell = (k + j * p.dimx) % UINT_MOD := by
  intro n
  induction n with
  | zero => intro i c_real h; simp [row_writes] at h
  | succ n ih =>
    intro i c_real h
    simp only [row_writes, List.mem_append, List.mem_singleton] at h
    rcases h with h | rfl
    · obtain ⟨k, h1, h2, h3⟩ := ih _ _ h
      exact ⟨k, by omega, by omega, h3⟩
    · exact ⟨i, le_refl _, by omega, rfl⟩

/-! ### Rows whose cell indices wrap onto each other -/

theorem img_data_row_skip (p : RenderParams α) (w j : Nat) (c_img : α) (i : Nat) (c_real : α)
    (n : Nat) (rest : List (PixelWrite α)) (c : Nat)
    (h : ∀ k, i ≤ k → k < i + n → (k + j * p.dimx) % UINT_MOD ≠ c) :
    img_data (row_writes p w j c_img i c_real n ++ rest) c = img_data rest c := by
  unfold img_data
  rw [List.find?_append]
  have hnone : List.find? (fun e => e.cell == c) (row_writes p w j c_img i c_real n) = none := by
    rw [List.find?_eq_none]
    intro e he
    obtain ⟨k, h1, h2, h3⟩ := mem_row_writes p w j c_img e n i c_real he
    simpa [h3] using h k h1 h2
  rw [hnone]
  rfl

theorem img_data_row_first (p : RenderParams α) (w j : Nat) (c_img : α) (c_real : α)
    (n : Nat) (rest : List (PixelWrite α)) (c : Nat) (hn : 0 < n)
    (h0 : (0 + j * p.dimx) % UINT_MOD = c)
    (h : ∀ k, 1 ≤ k → k < n → (k + j * p.dimx) % UINT_MOD ≠ c) :
    img_data (row_writes p w j c_img 0 c_real n ++ rest) c
      = some (core_pixel p.max_iter c_real c_img) := by
  obtain ⟨m, rfl⟩ := Nat.exists_eq_succ_of_ne_zero (Nat.pos_iff_ne_zero.mp hn)
  simp only [row_writes, List.append_assoc]
  rw [img_data_row_skip p w j c_img (0 + 1) _ m _ c
    (fun k h1 h2 => h k (by omega) (by omega))]
  have h0b : j * p.dimx % UINT_MOD = c := by simpa using h0
  simp only [img_data, List.singleton_append]
  rw [List.find?_cons_of_pos]
  · rfl
  · simp [h0b]


/-- With `dimx = 2^31` and `dimy = 3` the index `i + j * dimx` of row 2 wraps onto
row 0.  One thread alone leaves in cell 0 the count of pixel `(0, 2)`; with two
threads, a schedule in which the thread holding row 0 stores last leaves the
count of pixel `(0, 0)`. -/
theorem aliasing_rows (p : RenderParams α) (hx : p.dimx = 2147483648) (hy : p.dimy = 3) :
    ∃ schedA schedB,
      joined 1 (run p schedA (mandelbrot_multi_init 1)) ∧
      joined 2 (run p schedB (mandelbrot_multi_init 2)) ∧
      img_data (run p schedA (mandelbrot_multi_init 1)).writes 0
        = some (core_pixel p.max_iter p.minx (p.miny + p.increment * ((2 : Nat) : α))) ∧
      img_data (run p schedB (mandelbrot_multi_init 2)).writes 0
        = some (core_pixel p.max_iter p.minx (p.miny + p.increment * ((0 : Nat) : α))) := by
  have hM : UINT_MOD = 4294967296 := rfl
  -- one thread: rows 0, 1, 2 in order, then the failed claim
  have a1 := run_claim_row p 0 (mandelbrot_multi_init 1)
    (by simp [mandelbrot_multi_init]) (by rw [hy]; simp [mandelbrot_multi_init])
    (by rw [hM]; simp [mandelbrot_multi_init])
  generalize hs1 : run p (List.replicate (p.dimx + 2) 0) (mandelbrot_multi_init 1) = s1 at a1
  have s1pc : s1.pc 0 = .claim := by rw [a1]; simp
  have s1l : s1.line_num = 1 := by rw [a1]; simp [mandelbrot_multi_init]
  have s1w : s1.writes = row_writes p 0 0 (p.miny + p.increment * ((0 : Nat) : α)) 0 p.minx
      p.dimx ++ [] := by rw [a1]; simp [mandelbrot_multi_init]
  have a2 := run_claim_row p 0 s1 s1pc (by rw [hy, s1l]; omega) (by rw [hM, s1l]; omega)
  generalize hs2 : run p (List.replicate (p.dimx + 2) 0) s1 = s2 at a2
  have s2pc : s2.pc 0 = .claim := by rw [a2]; simp
  have s2l : s2.line_num = 2 := by rw [a2]; simp [s1l]
  have s2w : s2.writes = row_writes p 0 1 (p.miny + p.increment * ((1 : Nat) : α)) 0 p.minx
      p.dimx ++ s1.writes := by rw [a2]; simp [s1l]
  have a3 := run_claim_row p 0 s2 s2pc (by rw [hy, s2l]; omega) (by rw [hM, s2l]; omega)
  generalize hs3 : run p (List.replicate (p.dimx + 2) 0) s2 = s3 at a3
  have s3pc : s3.pc 0 = .claim := by rw [a3]; simp
  have s3l : s3.line_num = 3 := by rw [a3]; simp [s2l]
  have s3w : s3.writes = row_writes p 0 2 (p.miny + p.increment * ((2 : Nat) : α)) 0 p.minx
      p.dimx ++ s2.writes := by rw [a3]; simp [s2l]
  have a4 := core_step_claim_fail p 0 s3 s3pc (by rw [hy, s3l])
  generalize hs4 : core_step p 0 s3 = s4 at a4
  have s4pc : (s4.pc 0).isExited = true := by rw [a4]; simp [ThreadPc.isExited]
  have s4w : s4.writes = s3.writes := by rw [a4]
  have hA : run p (List.replicate (p.dimx + 2) 0 ++ (List.replicate (p.dimx + 2) 0 ++
      (List.replicate (p.dimx + 2) 0 ++ [0]))) (mandelbrot_multi_init 1) = s4 := by
    rw [run_append, hs1, run_append, hs2, run_append, hs3]; exact hs4
  have bufA : img_data s4.writes 0
      = some (core_pixel p.max_iter p.minx (p.miny + p.increment * ((2 : Nat) : α))) := by
    rw [s4w, s3w]
    apply img_data_row_first p 0 2 _ _ p.dimx _ 0 (by omega)
    · rw [hx, hM]
    · intro k h1 h2; rw [hx, hM]; omega
  -- two threads: thread 0 claims row 0 and waits
  have b1 := core_step_claim_ok p 0 (mandelbrot_multi_init 2)
    (by simp [mandelbrot_multi_init]) (by rw [hy]; simp [mandelbrot_multi_init])
  generalize ht1 : core_step p 0 (mandelbrot_multi_init 2 : RenderState α) = t1 at b1
  have t1pc0 : t1.pc 0 = .row 0 0 p.minx (p.miny + p.increment * ((0 : Nat) : α)) := by
    rw [b1]; simp [mandelbrot_multi_init]
  have t1pc1 : t1.pc 1 = .claim := by rw [b1]; simp [mandelbrot_multi_init]
  have t1l : t1.line_num = 1 := by rw [b1]; simp [mandelbrot_multi_init, hM]
  have t1w : t1.writes = [] := by rw [b1]; simp [mandelbrot_multi_init]
  -- thread 1 takes rows 1 and 2 and returns
  have b2 := run_claim_row p 1 t1 t1pc1 (by rw [hy, t1l]; omega) (by rw [hM, t1l]; omega)
  generalize ht2 : run p (List.replicate (p.dimx + 2) 1) t1 = t2 at b2
  have t2pc0 : t2.pc 0 = t1.pc 0 := by rw [b2]; simp
  have t2pc1 : t2.pc 1 = .claim := by rw [b2]; simp
  have t2l : t2.line_num = 2 := by rw [b2]; simp [t1l]
  have t2w : t2.writes = row_writes p 1 1 (p.miny + p.increment * ((1 : Nat) : α)) 0 p.minx
      p.dimx ++ t1.writes := by rw [b2]; simp [t1l]
  have b3 := run_claim_row p 1 t2 t2pc1 (by rw [hy, t2l]; omega) (by rw [hM, t2l]; omega)
  generalize ht3 : run p (List.replicate (p.dimx + 2) 1) t2 = t3 at b3
  have t3pc0 : t3.pc 0 = t2.pc 0 := by rw [b3]; simp
  have t3pc1 : t3.pc 1 = .claim := by rw [b3]; simp
  have t3l : t3.line_num = 3 := by rw [b3]; simp [t2l]
  have t3w : t3.writes = row_writes p 1 2 (p.miny + p.increment * ((2 : Nat) : α)) 0 p.minx
      p.dimx ++ t2.writes := by rw [b3]; simp [t2l]
  have b4 := core_step_claim_fail p 1 t3 t3pc1 (by rw [hy, t3l])
  generalize ht4 : core_step p 1 t3 = t4 at b4
  have t4pc0 : t4.pc 0 = t3.pc 0 := by rw [b4]; simp
  have t4pc1 : (t4.pc 1).isExited = true := by rw [b4]; simp [ThreadPc.isExited]
  have t4l : t4.line_num = 4 := by rw [b4]; simp [t3l, hM]
  have t4w : t4.writes = t3.writes := by rw [b4]
  -- thread 0 now stores row 0, over the cells of row 2
  have b5 := run_row_segment p 0 0 (p.miny + p.increment * ((0 : Nat) : α)) p.dimx t4 0 p.minx
    (by rw [t4pc0, t3pc0, t2pc0, t1pc0]) (by omega)
  generalize ht5 : run p (List.replicate p.dimx 0) t4 = t5 at b5
  have t5pc0 : t5.pc 0 = .row 0 (0 + p.dimx) ((fun c => c + p.increment)^[p.dimx] p.minx)
      (p.miny + p.increment * ((0 : Nat) : α)) := by rw [b5]; simp
  have t5pc1 : (t5.pc 1).isExited = true := by rw [b5]; simpa using t4pc1
  have t5l : t5.line_num = 4 := by rw [b5]; exact t4l
  have t5w : t5.writes = row_writes p 0 0 (p.miny + p.increment * ((0 : Nat) : α)) 0 p.minx
      p.dimx ++ t4.writes := by rw [b5]
  have b6 := core_step_row_end p 0 t5 _ _ _ _ t5pc0 (by omega)
  generalize ht6 : core_step p 0 t5 = t6 at b6
  have t6pc0 : t6.pc 0 = .claim := by rw [b6]; simp
  have t6pc1 : (t6.pc 1).isExited = true := by rw [b6]; simpa using t5pc1
  have t6l : t6.line_num = 4 := by rw [b6]; exact t5l
  have t6w : t6.writes = t5.writes := by rw [b6]
  have b7 := core_step_claim_fail p 0 t6 t6pc0 (by rw [hy, t6l]; omega)
  generalize ht7 : core_step p 0 t6 = t7 at b7
  have t7pc0 : (t7.pc 0).isExited = true := by rw [b7]; simp [ThreadPc.isExited]
  have t7pc1 : (t7.pc 1).isExited = true := by rw [b7]; simpa using t6pc1
  have t7w : t7.writes = t6.writes := by rw [b7]
  have hB : run p ([0] ++ (List.replicate (p.dimx + 2) 1 ++ (List.replicate (p.dimx + 2) 1 ++
      ([1] ++ (List.replicate p.dimx 0 ++ ([0] ++ [0])))))) (mandelbrot_multi_init 2) = t7 := by
    rw [run_append]
    have e0 : run p [0] (mandelbrot_multi_init 2 : RenderState α) = t1 := ht1
    rw [e0, run_append, ht2, run_append, ht3, run_append]
    have e1 : run p [1] t3 = t4 := ht4
    rw [e1, run_append, ht5, run_append]
    have e2 : run p [0] t5 = t6 := ht6
    rw [e2]
    exact ht7
  have bufB : img_data t7.writes 0
      = some (core_pixel p.max_iter p.minx (p.miny + p.increment * ((0 : Nat) : α))) := by
    rw [t7w, t6w, t5w]
    apply img_data_row_first p 0 0 _ _ p.dimx _ 0 (by omega)
    · simp
    · intro k h1 h2; rw [hM]; omega
  refine ⟨List.replicate (p.dimx + 2) 0 ++ (List.replicate (p.dimx + 2) 0 ++
      (List.replicate (p.dimx + 2) 0 ++ [0])),
    [0] ++ (List.replicate (p.dimx + 2) 1 ++ (List.replicate (p.dimx + 2) 1 ++
      ([1] ++ (List.replicate p.dimx 0 ++ ([0] ++ [0]))))), ?_, ?_, ?_, ?_⟩
  · rw [hA]
    intro w hw
    have : w = 0 := by omega
    subst this; exact s4pc
  · rw [hB]
    intro w hw
    have : w = 0 ∨ w = 1 := by omega
    rcases this with rfl | rfl
    · exact t7pc0
    · exact t7pc1
  · rw [hA]; exact bufA
  · rw [hB]; exact bufB

/-! ### Every claimed row is finished, every row is claimed -/

theorem progressInv_init (p : RenderParams α) (W : Nat) :
    ProgressInv p (mandelbrot_multi_init W : RenderState α) := by
  intro w j h
  simp [mandelbrot_multi_init] at h

theorem progressInv_step (p : RenderParams α) (w : Nat) (s : RenderState α)
    (inv : ProgressInv p s) : ProgressInv p (core_step p w s) := by
  cases hpc : s.pc w with
  | exited =>
    have : core_step p w s = s := by simp [core_step, hpc]
    rw [this]; exact inv
  | claim =>
    by_cases hl : p.dimy ≤ s.line_num
    · rw [core_step_claim_fail p w s hpc hl]
      intro w' j h i hi
      rcases inv w' j h i hi with hdone | ⟨i0, cr, ci, hrow, hle⟩
      · exact Or.inl hdone
      · right
        have hw : w' ≠ w := by
          rintro rfl; rw [hpc] at hrow; cases hrow
        exact ⟨i0, cr, ci, by simpa [Function.update_noteq hw] using hrow, hle⟩
    · rw [core_step_claim_ok p w s hpc (by omega)]
      intro w' j h i hi
      simp only [List.mem_cons, Prod.mk.injEq] at h
      rcases h with ⟨rfl, rfl⟩ | h
      · right
        exact ⟨0, p.minx, p.miny + p.increment * ((s.line_num : Nat) : α), by simp,
          Nat.zero_le _⟩
      · rcases inv w' j h i hi with hdone | ⟨i0, cr, ci, hrow, hle⟩
        · exact Or.inl hdone
        · right
          have hw : w' ≠ w := by
            rintro rfl; rw [hpc] at hrow; cases hrow
          exact ⟨i0, cr, ci, by simpa [Function.update_noteq hw] using hrow, hle⟩
  | row j0 i0 c_real c_img =>
    by_cases hi0 : i0 < p.dimx
    · rw [core_step_store p w s j0 i0 c_real c_img hpc hi0]
      intro w' j h i hi
      rcases inv w' j h i hi with ⟨e, he, hej, hei⟩ | ⟨i1, cr, ci, hrow, hle⟩
      · exact Or.inl ⟨e, List.mem_cons_of_mem _ he, hej, hei⟩
      · by_cases hw : w' = w
        · subst hw
          rw [hpc] at hrow
          simp only [ThreadPc.row.injEq] at hrow
          obtain ⟨rfl, rfl, rfl, rfl⟩ := hrow
          by_cases hii : i = i0
          · left
            exact ⟨_, List.mem_cons_self _ _, rfl, hii.symm⟩
          · right
            exact ⟨i0 + 1, c_real + p.increment, c_img, by simp, by omega⟩
        · right
          exact ⟨i1, cr, ci, by simpa [Function.update_noteq hw] using hrow, hle⟩
    · rw [core_step_row_end p w s j0 i0 c_real c_img hpc (by omega)]
      intro w' j h i hi
      rcases inv w' j h i hi with hdone | ⟨i1, cr, ci, hrow, hle⟩
      · exact Or.inl hdone
      · by_cases hw : w' = w
        · subst hw
          rw [hpc] at hrow
          simp only [ThreadPc.row.injEq] at hrow
          obtain ⟨rfl, rfl, rfl, rfl⟩ := hrow
          omega
        · right
          exact ⟨i1, cr, ci, by simpa [Function.update_noteq hw] using hrow, hle⟩

theorem progressInv_run (p : RenderParams α) (sched : List Nat) (s : RenderState α)
    (inv : ProgressInv p s) : ProgressInv p (run p sched s) := by
  induction sched generalizing s with
  | nil => exact inv
  | cons w ws ih => rw [run_cons]; exact ih _ (progressInv_step p w s inv)

theorem rowsInv_init (p : RenderParams α) (W : Nat) :
    RowsInv p W (mandelbrot_multi_init W : RenderState α) := by
  right
  refine ⟨?_, ?_, ?_⟩
  · intro w hw; simp [mandelbrot_multi_init, hw, ThreadPc.isExited]
  · simp [mandelbrot_multi_init]
  · intro r hr; simp [mandelbrot_multi_init] at hr

theorem rowsInv_step (p : RenderParams α) (W : Nat) (hdimy : p.dimy < UINT_MOD) (w : Nat)
    (s : RenderState α) (inv : RowsInv p W s) : RowsInv p W (core_step p w s) := by
  cases hpc : s.pc w with
  | exited =>
    have : core_step p w s = s := by simp [core_step, hpc]
    rw [this]; exact inv
  | claim =>
    by_cases hl : p.dimy ≤ s.line_num
    · rw [core_step_claim_fail p w s hpc hl]
      left
      rcases inv with hall | ⟨_, hle, hbelow⟩
      · exact hall
      · intro r hr; exact hbelow r (by omega)
    · rw [core_step_claim_ok p w s hpc (by omega)]
      rcases inv with hall | ⟨hno, hle, hbelow⟩
      · left
        intro r hr
        simp only [claimed_rows, List.map_cons, List.mem_cons]
        exact Or.inr (hall r hr)
      · right
        refine ⟨?_, ?_, ?_⟩
        · intro w' hw'
          by_cases hw : w' = w
          · subst hw; simp [ThreadPc.isExited]
          · simpa [Function.update_noteq hw] using hno w' hw'
        · simp only
          rw [Nat.mod_eq_of_lt (by omega)]; omega
        · intro r hr
          simp only at hr
          rw [Nat.mod_eq_of_lt (by omega)] at hr
          simp only [claimed_rows, List.map_cons, List.mem_cons]
          by_cases hrl : r = s.line_num
          · exact Or.inl hrl
          · exact Or.inr (hbelow r (by omega))
  | row j0 i0 c_real c_img =>
    have hkeep : ∀ v : ThreadPc α, v.isExited = false →
        RowsInv p W { s with pc := Function.update s.pc w v } := by
      intro v hv
      rcases inv with hall | ⟨hno, hle, hbelow⟩
      · exact Or.inl hall
      · right
        refine ⟨?_, hle, hbelow⟩
        intro w' hw'
        by_cases hw : w' = w
        · subst hw; simpa using hv
        · simpa [Function.update_noteq hw] using hno w' hw'
    by_cases hi0 : i0 < p.dimx
    · rw [core_step_store p w s j0 i0 c_real c_img hpc hi0]
      have := hkeep (.row j0 (i0 + 1) (c_real + p.increment) c_img) rfl
      exact this
    · rw [core_step_row_end p w s j0 i0 c_real c_img hpc (by omega)]
      exact hkeep .claim rfl

theorem rowsInv_run (p : RenderParams α) (W : Nat) (hdimy : p.dimy < UINT_MOD)
    (sched : List Nat) (s : RenderState α) (inv : RowsInv p W s) :
    RowsInv p W (run p sched s) := by
  induction sched generalizing s with
  | nil => exact inv
  | cons w ws ih => rw [run_cons]; exact ih _ (rowsInv_step p W hdimy w s inv)

/-- When every thread has returned, every pixel of the image has been stored at
least once (whatever the schedule, and also when the cursor has wrapped). -/
theorem joined_covers (p : RenderParams α) (W : Nat) (hW : 1 ≤ W) (hdimy : p.dimy < UINT_MOD)
    (sched : List Nat) (hj : joined W (run p sched (mandelbrot_multi_init W)))
    (i j : Nat) (hi : i < p.dimx) (hjy : j < p.dimy) :
    ∃ e, e ∈ (run p sched (mandelbrot_multi_init W)).writes ∧ e.j = j ∧ e.i = i := by
  have hrows := rowsInv_run p W hdimy sched _ (rowsInv_init p W)
  have hprog := progressInv_run p sched _ (progressInv_init p W)
  have hall : ∀ w, ((run p sched (mandelbrot_multi_init W : RenderState α)).pc w).isExited
      = true := by
    intro w
    by_cases hw : w < W
    · exact hj w hw
    · exact run_exited p w sched _ (by simp [mandelbrot_multi_init, hw, ThreadPc.isExited])
  have hclaimed : j ∈ claimed_rows (run p sched (mandelbrot_multi_init W : RenderState α)) := by
    rcases hrows with h | ⟨hno, _, _⟩
    · exact h j hjy
    · have := hno 0 (by omega)
      rw [hall 0] at this
      cases this
  obtain ⟨⟨w, j'⟩, hmem, hj'⟩ := List.mem_map.mp hclaimed
  simp only at hj'
  subst hj'
  rcases hprog w j' hmem i hi with hdone | ⟨i0, cr, ci, hrow, _⟩
  · exact hdone
  · have := hall w
    rw [hrow] at this
    cases this

/-! ### The buffer left by a complete render -/

theorem cell_lt (dimx dimy i j : Nat) (hi : i < dimx) (hj : j < dimy) :
    i + j * dimx < dimx * dimy := by
  have h1 : (j + 1) * dimx ≤ dimy * dimx := Nat.mul_le_mul_right dimx hj
  have h2 : (j + 1) * dimx = j * dimx + dimx := Nat.succ_mul j dimx
  have h3 : dimy * dimx = dimx * dimy := Nat.mul_comm _ _
  omega

theorem cell_unique (dimx i j k : Nat) (hi : i < dimx) (h : i + j * dimx = k) :
    i = k % dimx ∧ j = k / dimx := by
  subst h
  have hpos : 0 < dimx := by omega
  constructor
  · rw [Nat.add_mul_mod_self_right, Nat.mod_eq_of_lt hi]
  · rw [Nat.add_mul_div_right _ _ hpos, Nat.div_eq_of_lt hi, Nat.zero_add]

/-- The buffer `mandelbrot_multi` leaves when `dimx * dimy <= 2^32`: whatever the
number of threads and the schedule, once every thread has returned cell
`i + j * dimx` holds the count of pixel `(i, j)` and no other cell was stored. -/
theorem joined_buffer (p : RenderParams α) (W : Nat) (hW : 1 ≤ W) (hdimy : p.dimy < UINT_MOD)
    (hsz : p.dimx * p.dimy ≤ UINT_MOD) (sched : List Nat)
    (hj : joined W (run p sched (mandelbrot_multi_init W))) (k : Nat) :
    img_data (run p sched (mandelbrot_multi_init W)).writes k
      = if k < p.dimx * p.dimy then
          some (core_pixel p.max_iter ((fun c => c + p.increment)^[k % p.dimx] p.minx)
            (p.miny + p.increment * ((k / p.dimx : Nat) : α)))
        else none := by
  have hcore := coreInv_run p sched _ (coreInv_init p W)
  have hcell : ∀ e, e ∈ (run p sched (mandelbrot_multi_init W : RenderState α)).writes →
      e.cell = e.i + e.j * p.dimx ∧ e.cell < p.dimx * p.dimy := by
    intro e he
    have ok := hcore.stores e he
    have hlt := cell_lt p.dimx p.dimy e.i e.j ok.i_lt ok.j_lt
    have : e.cell = e.i + e.j * p.dimx := by
      rw [ok.cell_eq]; exact Nat.mod_eq_of_lt (by omega)
    exact ⟨this, by omega⟩
  unfold img_data
  split
  · rename_i hk
    have hpos : 0 < p.dimx := by
      rcases Nat.eq_zero_or_pos p.dimx with h0 | h0
      · rw [h0] at hk; simp at hk
      · exact h0
    have hi : k % p.dimx < p.dimx := Nat.mod_lt _ hpos
    have hjy : k / p.dimx < p.dimy := by
      rw [Nat.div_lt_iff_lt_mul hpos, Nat.mul_comm]; exact hk
    obtain ⟨e0, he0, he0j, he0i⟩ := joined_covers p W hW hdimy sched hj _ _ hi hjy
    have he0c : e0.cell = k := by
      rw [(hcell e0 he0).1, he0j, he0i]
      exact Nat.mod_add_div' k p.dimx
    cases hfind : List.find? (fun e => e.cell == k)
        (run p sched (mandelbrot_multi_init W : RenderState α)).writes with
    | none =>
      rw [List.find?_eq_none] at hfind
      have := hfind e0 he0
      simp [he0c] at this
    | some e =>
      have hmem := List.mem_of_find?_eq_some hfind
      have hc : e.cell = k := by
        have := List.find?_some hfind
        simpa using this
      have ok := hcore.stores e hmem
      obtain ⟨h1, h2⟩ := cell_unique p.dimx e.i e.j k ok.i_lt
        (by rw [← (hcell e hmem).1]; exact hc)
      simp only [Option.map_some']
      rw [ok.value_eq, ok.c_real_eq, ok.c_img_eq, h1, h2]
  · rename_i hk
    have hnone : List.find? (fun e => e.cell == k)
        (run p sched (mandelbrot_multi_init W : RenderState α)).writes = none := by
      rw [List.find?_eq_none]
      intro e he
      have := (hcell e he).2
      simp only [beq_iff_eq]
      omega
    rw [hnone]
    rfl

/-- Determinism while `dimx * dimy <= 2^32`: two complete runs of the same render,
with any numbers of threads and any schedules, leave the same buffer. -/
theorem determinism_within_index_range (p : RenderParams α) (hdimy : p.dimy < UINT_MOD)
    (hsz : p.dimx * p.dimy ≤ UINT_MOD) (W1 W2 : Nat) (hW1 : 1 ≤ W1) (hW2 : 1 ≤ W2)
    (sched1 sched2 : List Nat)
    (hj1 : joined W1 (run p sched1 (mandelbrot_multi_init W1)))
    (hj2 : joined W2 (run p sched2 (mandelbrot_multi_init W2))) :
    img_data (run p sched1 (mandelbrot_multi_init W1)).writes
      = img_data (run p sched2 (mandelbrot_multi_init W2)).writes := by
  funext k
  rw [joined_buffer p W1 hW1 hdimy hsz sched1 hj1 k,
    joined_buffer p W2 hW2 hdimy hsz sched2 hj2 k]

/-! ### No pixel is stored twice while the cursor cannot wrap -/

theorem pixel_count_cons (e : PixelWrite α) (l : List (PixelWrite α)) (j i : Nat) :
    pixel_count (e :: l) j i
      = pixel_count l j i + if e.j = j ∧ e.i = i then 1 else 0 := by
  unfold pixel_count
  rw [List.countP_cons]
  simp

theorem pixel_count_eq_zero (l : List (PixelWrite α)) (j i : Nat)
    (h : ∀ e, e ∈ l → e.j ≠ j) : pixel_count l j i = 0 := by
  unfold pixel_count
  rw [List.countP_eq_zero]
  intro e he
  simp [h e he]

theorem claim_owner_unique (claims : List (Nat × Nat)) (hnd : (claims.map Prod.snd).Nodup)
    (w w' j : Nat) (h : (w, j) ∈ claims) (h' : (w', j) ∈ claims) : w = w' := by
  have := List.inj_on_of_nodup_map hnd h h' rfl
  exact (Prod.mk.inj this).1

theorem onceInv_init (p : RenderParams α) (W : Nat) :
    OnceInv p (mandelbrot_multi_init W : RenderState α) := by
  refine ⟨?_, ?_⟩
  · intro w j i0 c_real c_img h i hi
    simp [mandelbrot_multi_init, pixel_count]
  · intro j i
    simp [mandelbrot_multi_init, pixel_count]

theorem onceInv_step (p : RenderParams α) (W : Nat) (hsz : p.dimy + W ≤ UINT_MOD) (w : Nat)
    (s : RenderState α) (hs : SchedInv p W s) (hc : CoreInv p s) (inv : OnceInv p s) :
    OnceInv p (core_step p w s) := by
  obtain ⟨hahead, honce⟩ := inv
  cases hpc : s.pc w with
  | exited =>
    have : core_step p w s = s := by simp [core_step, hpc]
    rw [this]; exact ⟨hahead, honce⟩
  | claim =>
    by_cases hl : p.dimy ≤ s.line_num
    · rw [core_step_claim_fail p w s hpc hl]
      refine ⟨?_, honce⟩
      intro w' j i0 c_real c_img h i hi
      by_cases hw : w' = w
      · subst hw; simp at h
      · simp only [Function.update_noteq hw] at h
        exact hahead w' j i0 c_real c_img h i hi
    · rw [core_step_claim_ok p w s hpc (by omega)]
      refine ⟨?_, honce⟩
      intro w' j i0 c_real c_img h i hi
      by_cases hw : w' = w
      · subst hw
        simp only [Function.update_same, ThreadPc.row.injEq] at h
        obtain ⟨rfl, rfl, rfl, rfl⟩ := h
        -- the row under the cursor has never been handed out, so it has no store
        have hne : (s.pc w').isExited = false := by simp [hpc, ThreadPc.isExited]
        have hwW : w' < W := by
          by_contra hcon
          have := hs.outside w' (by omega)
          rw [hne] at this; exact absurd this (by simp)
        have hd : exited_count W s.pc < W := exited_count_lt W s.pc w' hwW hne
        have hcur : s.line_num = s.claims.length + exited_count W s.pc := by
          rw [hs.cursor]; exact Nat.mod_eq_of_lt (by have := hs.le_dimy; omega)
        have hd0 : exited_count W s.pc = 0 := by
          by_contra hcon
          have := hs.all_out (by omega)
          omega
        apply pixel_count_eq_zero
        intro e he hej
        have hmem := (hc.stores e he).claimed
        have hrow : e.j ∈ claimed_rows s := List.mem_map.mpr ⟨_, hmem, rfl⟩
        rw [hs.rows, List.mem_reverse, List.mem_range] at hrow
        omega
      · simp only [Function.update_noteq hw] at h
        exact hahead w' j i0 c_real c_img h i hi
  | row j0 i0 c_real c_img =>
    by_cases hi0 : i0 < p.dimx
    · rw [core_step_store p w s j0 i0 c_real c_img hpc hi0]
      have hnd : (s.claims.map Prod.snd).Nodup := by
        have := hs.rows
        unfold claimed_rows at this
        rw [this]
        exact List.nodup_reverse.mpr (List.nodup_range _)
      refine ⟨?_, ?_⟩
      · intro w' j i1 c_real' c_img' h i hi
        simp only at h ⊢
        rw [pixel_count_cons]
        by_cases hw : w' = w
        · subst hw
          simp only [Function.update_same, ThreadPc.row.injEq] at h
          obtain ⟨rfl, rfl, rfl, rfl⟩ := h
          rw [hahead w' j0 i0 c_real c_img hpc i (by omega)]
          have : ¬ i0 = i := by omega
          simp [this]
        · simp only [Function.update_noteq hw] at h
          rw [hahead w' j i1 c_real' c_img' h i hi]
          have hjne : j0 ≠ j := by
            intro hjj
            subst hjj
            have h1 := (hc.pcs w j0 i0 c_real c_img hpc).2.2.2.2
            have h2 := (hc.pcs w' j0 i1 c_real' c_img' h).2.2.2.2
            exact hw (claim_owner_unique s.claims hnd w' w j0 h2 h1)
          have : ¬ (j0 = j ∧ i0 = i) := fun hh => hjne hh.1
          simp [this]
      · intro j i
        simp only
        rw [pixel_count_cons]
        by_cases hji : j0 = j ∧ i0 = i
        · obtain ⟨rfl, rfl⟩ := hji
          rw [hahead w j0 i0 c_real c_img hpc i0 (le_refl _)]
          simp
        · have := honce j i
          simp [hji]; exact this
    · rw [core_step_row_end p w s j0 i0 c_real c_img hpc (by omega)]
      refine ⟨?_, honce⟩
      intro w' j i1 c_real' c_img' h i hi
      by_cases hw : w' = w
      · subst hw; simp at h
      · simp only [Function.update_noteq hw] at h
        exact hahead w' j i1 c_real' c_img' h i hi

theorem onceInv_run (p : RenderParams α) (W : Nat) (hsz : p.dimy + W ≤ UINT_MOD)
    (sched : List Nat) (s : RenderState α) (hs : SchedInv p W s) (hc : CoreInv p s)
    (inv : OnceInv p s) : OnceInv p (run p sched s) := by
  induction sched generalizing s with
  | nil => exact inv
  | cons w ws ih =>
    rw [run_cons]
    exact ih _ (schedInv_step p W hsz w s hs) (coreInv_step p w s hc)
      (onceInv_step p W hsz w s hs hc inv)

/-- Full and exclusive population while the cursor cannot wrap: with
`dimx * dimy <= 2^32`, `W >= 1` threads and `dimy + W <= 2^32`, once every thread
has returned every cell below `dimx * dimy` has been stored exactly once, by a
thread holding the claim on its row, and no other cell has been stored. -/
theorem exclusive_population_within_range (p : RenderParams α) (W : Nat) (hW : 1 ≤ W)
    (hwrap : p.dimy + W ≤ UINT_MOD) (hsz : p.dimx * p.dimy ≤ UINT_MOD) (sched : List Nat)
    (hj : joined W (run p sched (mandelbrot_multi_init W))) :
    (∀ k, store_count (run p sched (mandelbrot_multi_init W)).writes k
        = if k < p.dimx * p.dimy then 1 else 0) ∧
    (∀ e, e ∈ (run p sched (mandelbrot_multi_init W)).writes →
        (e.worker, e.j) ∈ (run p sched (mandelbrot_multi_init W)).claims ∧
        e.cell = e.i + e.j * p.dimx) := by
  have hdimy : p.dimy < UINT_MOD := by omega
  have hcore := coreInv_run p sched _ (coreInv_init p W)
  have honce := onceInv_run p W hwrap sched _ (schedInv_init p W) (coreInv_init p W)
    (onceInv_init p W)
  have hcell : ∀ e, e ∈ (run p sched (mandelbrot_multi_init W : RenderState α)).writes →
      e.cell = e.i + e.j * p.dimx ∧ e.cell < p.dimx * p.dimy := by
    intro e he
    have ok := hcore.stores e he
    have hlt := cell_lt p.dimx p.dimy e.i e.j ok.i_lt ok.j_lt
    have : e.cell = e.i + e.j * p.dimx := by
      rw [ok.cell_eq]; exact Nat.mod_eq_of_lt (by omega)
    exact ⟨this, by omega⟩
  refine ⟨?_, fun e he => ⟨(hcore.stores e he).claimed, (hcell e he).1⟩⟩
  intro k
  split
  · rename_i hk
    have hpos : 0 < p.dimx := by
      rcases Nat.eq_zero_or_pos p.dimx with h0 | h0
      · rw [h0] at hk; simp at hk
      · exact h0
    have hi : k % p.dimx < p.dimx := Nat.mod_lt _ hpos
    have hjy : k / p.dimx < p.dimy := by
      rw [Nat.div_lt_iff_lt_mul hpos, Nat.mul_comm]; exact hk
    have hcongr : store_count (run p sched (mandelbrot_multi_init W : RenderState α)).writes k
        = pixel_count (run p sched (mandelbrot_multi_init W : RenderState α)).writes
            (k / p.dimx) (k % p.dimx) := by
      unfold store_count pixel_count
      apply List.countP_congr
      intro e he
      have ok := hcore.stores e he
      simp only [beq_iff_eq, Bool.and_eq_true]
      constructor
      · intro hc
        obtain ⟨h1, h2⟩ := cell_unique p.dimx e.i e.j k ok.i_lt
          (by rw [← (hcell e he).1]; exact hc)
        exact ⟨h2, h1⟩
      · rintro ⟨h1, h2⟩
        rw [(hcell e he).1, h1, h2]
        exact Nat.mod_add_div' k p.dimx
    rw [hcongr]
    obtain ⟨e0, he0, he0j, he0i⟩ := joined_covers p W hW hdimy sched hj _ _ hi hjy
    have hpos1 : 0 < pixel_count (run p sched (mandelbrot_multi_init W : RenderState α)).writes
        (k / p.dimx) (k % p.dimx) := by
      unfold pixel_count
      rw [List.countP_pos_iff]
      exact ⟨e0, he0, by simp [he0j, he0i]⟩
    have := honce.once (k / p.dimx) (k % p.dimx)
    omega
  · rename_i hk
    unfold store_count
    rw [List.countP_eq_zero]
    intro e he
    have := (hcell e he).2
    simp only [beq_iff_eq]
    omega

/-! ### The loop with its final variables -/

theorem escape_loop_state_iter (max_iter : Nat) (c_real c_img : α) :
    ∀ (fuel : Nat) (z_real z_img : α) (iter : Nat),
      (escape_loop_state max_iter c_real c_img fuel z_real z_img iter).2.2
        = escape_loop max_iter c_real c_img fuel z_real z_img iter := by
  intro fuel
  induction fuel with
  | zero => intro z_real z_img iter; rfl
  | succ fuel ih =>
    intro z_real z_img iter
    simp only [escape_loop_state, escape_loop]
    split
    · exact ih _ _ _
    · rfl

/-! ### The cursor is incremented by every claim -/

theorem core_step_line_num_other (p : RenderParams α) (w : Nat) (s : RenderState α)
    (h : s.pc w ≠ .claim) : (core_step p w s).line_num = s.line_num := by
  cases hpc : s.pc w with
  | exited => simp [core_step, hpc]
  | claim => exact absurd hpc h
  | row j i c_real c_img =>
    by_cases hi : i < p.dimx
    · rw [core_step_store p w s j i c_real c_img hpc hi]
    · rw [core_step_row_end p w s j i c_real c_img hpc (by omega)]

theorem exited_count_le (W : Nat) (pc : Nat → ThreadPc α) : exited_count W pc ≤ W := by
  unfold exited_count
  have := Finset.card_filter_le (Finset.range W) (fun w => (pc w).isExited = true)
  simpa using this

/-- C13 as amended: every claim increments the cursor, the failed ones too.
A claim made with `line_num >= dimy` makes the thread return and hands out no
row, and still leaves `line_num + 1` (modulo 2^32); a step that is not a claim
leaves the cursor alone; and in a render with `dimy + W <= 2^32` the cursor is,
modulo 2^32, the rows handed out (at most `dimy`) plus the threads that have
returned (at most `W`). -/
theorem claim_always_increments_cursor (p : RenderParams α) :
    (∀ (w : Nat) (s : RenderState α), s.pc w = .claim →
        (core_step p w s).line_num = (s.line_num + 1) % 2 ^ 32 ∧
        (p.dimy ≤ s.line_num →
          ((core_step p w s).pc w).isExited = true ∧ (core_step p w s).claims = s.claims) ∧
        (s.line_num < p.dimy → (core_step p w s).claims = (w, s.line_num) :: s.claims)) ∧
    (∀ (w : Nat) (s : RenderState α), s.pc w ≠ .claim →
        (core_step p w s).line_num = s.line_num) ∧
    (∀ (W : Nat) (sched : List Nat), p.dimy + W ≤ 2 ^ 32 →
        (run p sched (mandelbrot_multi_init W)).line_num
          = ((run p sched (mandelbrot_multi_init W)).claims.length
              + exited_count W (run p sched (mandelbrot_multi_init W)).pc) % 2 ^ 32 ∧
        (run p sched (mandelbrot_multi_init W)).claims.length ≤ p.dimy ∧
        exited_count W (run p sched (mandelbrot_multi_init W)).pc ≤ W) := by
  have hM : UINT_MOD = 2 ^ 32 := by norm_num [UINT_MOD]
  refine ⟨?_, core_step_line_num_other p, ?_⟩
  · intro w s hpc
    refine ⟨?_, ?_, ?_⟩
    · rw [← hM]
      by_cases hl : p.dimy ≤ s.line_num
      · rw [core_step_claim_fail p w s hpc hl]
      · rw [core_step_claim_ok p w s hpc (by omega)]
    · intro hl
      rw [core_step_claim_fail p w s hpc hl]
      simp [ThreadPc.isExited]
    · intro hl
      rw [core_step_claim_ok p w s hpc hl]
  · intro W sched hsz
    have inv := schedInv_run p W (by rw [hM]; exact hsz) sched _ (schedInv_init p W)
    refine ⟨?_, inv.le_dimy, exited_count_le W _⟩
    rw [← hM]; exact inv.cursor

/-- While `dimy + W <= 2^32` exhaustion is permanent: once one thread has
returned, every thread still at its claim finds the cursor at `dimy` or beyond. -/
theorem exhaustion_permanent_within_range (p : RenderParams α) (W : Nat)
    (hsz : p.dimy + W ≤ UINT_MOD) (sched : List Nat)
    (hex : 1 ≤ exited_count W (run p sched (mandelbrot_multi_init W)).pc) (w : Nat)
    (hpc : (run p sched (mandelbrot_multi_init W)).pc w = .claim) :
    p.dimy ≤ (run p sched (mandelbrot_multi_init W)).line_num := by
  have inv := schedInv_run p W hsz sched _ (schedInv_init p W)
  have hne : ((run p sched (mandelbrot_multi_init W : RenderState α)).pc w).isExited = false := by
    rw [hpc]; rfl
  have hwW : w < W := by
    by_contra hcon
    have := inv.outside w (by omega)
    rw [hne] at this; exact absurd this (by simp)
  have hd := exited_count_lt W _ w hwW hne
  have hn := inv.all_out hex
  rw [inv.cursor, Nat.mod_eq_of_lt (by omega)]
  omega

/-- With two threads some schedule brings both to the claim with the cursor at
`dimy`, every row handed out. -/
theorem reach_cursor_at_dimy (p : RenderParams α) (hdimy : p.dimy < UINT_MOD) :
    ∃ sched, (run p sched (mandelbrot_multi_init 2)).pc 0 = .claim ∧
      (run p sched (mandelbrot_multi_init 2)).pc 1 = .claim ∧
      (run p sched (mandelbrot_multi_init 2)).line_num = p.dimy ∧
      ∀ r, r < p.dimy → r ∈ claimed_rows (run p sched (mandelbrot_multi_init 2)) := by
  obtain ⟨k, hk1, hk2⟩ := run_alone_to_cursor p 0 hdimy _ (mandelbrot_multi_init 2)
    (by simp [mandelbrot_multi_init]) (by simp [mandelbrot_multi_init]) rfl
  refine ⟨List.replicate k 0, hk1, ?_, hk2, ?_⟩
  · rw [run_replicate_pc_other p 0 1 (by decide)]
    simp [mandelbrot_multi_init]
  · intro r hr
    rcases rowsInv_run p 2 hdimy (List.replicate k 0) _ (rowsInv_init p 2) with h | ⟨_, _, h⟩
    · exact h r hr
    · exact h r (by rw [hk2]; exact hr)

/-! ### Degenerate sizes and thread counts -/

theorem core_step_of_exited (p : RenderParams α) (w : Nat) (s : RenderState α)
    (h : (s.pc w).isExited = true) : core_step p w s = s := by
  cases hpc : s.pc w with
  | exited => simp [core_step, hpc]
  | claim => rw [hpc] at h; cases h
  | row j i c_real c_img => rw [hpc] at h; cases h

theorem run_no_threads (p : RenderParams α) (sched : List Nat) :
    run p sched (mandelbrot_multi_init 0) = (mandelbrot_multi_init 0 : RenderState α) := by
  induction sched with
  | nil => rfl
  | cons w ws ih =>
    rw [run_cons, core_step_of_exited p w _ (by simp [mandelbrot_multi_init, ThreadPc.isExited])]
    exact ih

/-- With `dimy = 0` the first step of a thread is a failed claim: a thread that
has taken a step has returned. -/
theorem run_exits_scheduled (p : RenderParams α) (hy : p.dimy = 0) (w : Nat) :
    ∀ (sched : List Nat) (s : RenderState α), CoreInv p s → w ∈ sched →
      ((run p sched s).pc w).isExited = true := by
  intro sched
  induction sched with
  | nil => intro s _ h; simp at h
  | cons a rest ih =>
    intro s inv h
    rw [run_cons]
    by_cases ha : a = w
    · subst ha
      apply run_exited
      cases hpc : s.pc a with
      | exited => rw [core_step_of_exited p a s (by rw [hpc]; rfl), hpc]; rfl
      | claim =>
        rw [core_step_claim_fail p a s hpc (by omega)]
        simp [ThreadPc.isExited]
      | row j i c_real c_img =>
        have := (inv.pcs a j i c_real c_img hpc).1
        omega
    · have hmem : w ∈ rest := by
        rcases List.mem_cons.mp h with h1 | h1
        · exact absurd h1.symm ha
        · exact h1
      exact ih _ (coreInv_step p a s inv) hmem

/-- C17. Degenerate parameters: with `dimx = 0`, `dimy = 0` or no thread (the
other parameters arbitrary, `dimy` an `unsigned int`), some schedule lets every
thread of `mandelbrot_multi` return, and no schedule ever stores into the
buffer.  With `dimy = 0` every schedule in which each thread takes a step ends
with all threads returned; with no thread the render is over at once.  The
division `xsize / dimx` of line 155 is the division of the arithmetic `α`, a value
also for `dimx = 0`: the model has no branch that faults. -/
theorem degenerate_parameters (minx miny xsize : α) (dimx dimy max_iter W : Nat)
    (hdimy : dimy < 2 ^ 32) (hdeg : dimx = 0 ∨ dimy = 0 ∨ W = 0) :
    (∃ sched, joined W (mandelbrot_multi minx miny xsize dimx dimy max_iter W sched)) ∧
    (∀ sched, (mandelbrot_multi minx miny xsize dimx dimy max_iter W sched).writes = []) ∧
    (dimy = 0 → ∀ sched, (∀ w, w < W → w ∈ sched) →
      joined W (mandelbrot_multi minx miny xsize dimx dimy max_iter W sched)) ∧
    (W = 0 → ∀ sched,
      joined W (mandelbrot_multi minx miny xsize dimx dimy max_iter W sched)) := by
  refine ⟨?_, ?_, ?_, ?_⟩
  · exact exists_joined (mandelbrot_multi_params minx miny xsize dimx dimy max_iter)
      (by simpa [mandelbrot_multi_params, UINT_MOD] using hdimy) W _
  · intro sched
    have inv := coreInv_run (mandelbrot_multi_params minx miny xsize dimx dimy max_iter)
      sched _ (coreInv_init _ W)
    rcases hdeg with h | h | h
    · apply List.eq_nil_iff_forall_not_mem.mpr
      intro e he
      have := (inv.stores e he).i_lt
      simp only [mandelbrot_multi_params] at this
      omega
    · apply List.eq_nil_iff_forall_not_mem.mpr
      intro e he
      have := (inv.stores e he).j_lt
      simp only [mandelbrot_multi_params] at this
      omega
    · subst h
      unfold mandelbrot_multi
      rw [run_no_threads]
      rfl
  · intro hy sched hall w hw
    exact run_exits_scheduled (mandelbrot_multi_params minx miny xsize dimx dimy max_iter)
      (by simp [mandelbrot_multi_params, hy]) w sched _ (coreInv_init _ W) (hall w hw)
  · intro hW sched w hw
    omega


/-! ### The buffer left by the single threaded render -/

/-- The buffer left by a list of stores that covers the image, each pixel
`(i, j)` stored into cell `i + j * dimx` with the value `f j i`, when
`dimx * dimy <= 2^32`. -/
theorem img_data_of_pixels (l : List (PixelWrite α)) (dimx dimy : Nat) (f : Nat → Nat → Nat)
    (hsz : dimx * dimy ≤ UINT_MOD)
    (hok : ∀ e, e ∈ l → e.i < dimx ∧ e.j < dimy ∧
      e.cell = (e.i + e.j * dimx) % UINT_MOD ∧ e.value = f e.j e.i)
    (hcov : ∀ i j, i < dimx → j < dimy → ∃ e, e ∈ l ∧ e.j = j ∧ e.i = i) (k : Nat) :
    img_data l k = if k < dimx * dimy then some (f (k / dimx) (k % dimx)) else none := by
  have hcell : ∀ e, e ∈ l → e.cell = e.i + e.j * dimx ∧ e.cell < dimx * dimy := by
    intro e he
    obtain ⟨h1, h2, h3, _⟩ := hok e he
    have hlt := cell_lt dimx dimy e.i e.j h1 h2
    have : e.cell = e.i + e.j * dimx := by
      rw [h3]; exact Nat.mod_eq_of_lt (by omega)
    exact ⟨this, by omega⟩
  unfold img_data
  split
  · rename_i hk
    have hpos : 0 < dimx := by
      rcases Nat.eq_zero_or_pos dimx with h0 | h0
      · rw [h0] at hk; simp at hk
      · exact h0
    have hi : k % dimx < dimx := Nat.mod_lt _ hpos
    have hjy : k / dimx < dimy := by
      rw [Nat.div_lt_iff_lt_mul hpos, Nat.mul_comm]; exact hk
    obtain ⟨e0, he0, he0j, he0i⟩ := hcov _ _ hi hjy
    have he0c : e0.cell = k := by
      rw [(hcell e0 he0).1, he0j, he0i]
      exact Nat.mod_add_div' k dimx
    cases hfind : List.find? (fun e => e.cell == k) l with
    | none =>
      rw [List.find?_eq_none] at hfind
      have := hfind e0 he0
      simp [he0c] at this
    | some e =>
      have hmem := List.mem_of_find?_eq_some hfind
      have hc : e.cell = k := by
        have := List.find?_some hfind
        simpa using this
      obtain ⟨h1, h2⟩ := cell_unique dimx e.i e.j k (hok e hmem).1
        (by rw [← (hcell e hmem).1]; exact hc)
      simp only [Option.map_some']
      rw [(hok e hmem).2.2.2, h1, h2]
  · rename_i hk
    have hnone : List.find? (fun e => e.cell == k) l = none := by
      rw [List.find?_eq_none]
      intro e he
      have := (hcell e he).2
      simp only [beq_iff_eq]
      omega
    rw [hnone]
    rfl

/-- The buffer `mandelbrot` leaves when `dimx * dimy <= 2^32`: cell `i + j * dimx`
holds the count of pixel `(i, j)` and no other cell is stored. -/
theorem mandelbrot_buffer (minx miny xsize : α) (dimx dimy max_iter : Nat)
    (hsz : dimx * dimy ≤ UINT_MOD) (k : Nat) :
    img_data (mandelbrot minx miny xsize dimx dimy max_iter) k
      = if k < dimx * dimy then
          some (escape_iter max_iter
            ((fun c => c + xsize / ((dimx : Nat) : α))^[k % dimx] minx)
            ((fun c => c + xsize / ((dimx : Nat) : α))^[k / dimx] miny))
        else none := by
  apply img_data_of_pixels _ dimx dimy
    (fun j i => escape_iter max_iter
      ((fun c => c + xsize / ((dimx : Nat) : α))^[i] minx)
      ((fun c => c + xsize / ((dimx : Nat) : α))^[j] miny)) hsz
  · intro e he
    rw [mem_mandelbrot] at he
    obtain ⟨j, hj, i, hi, rfl⟩ := he
    exact ⟨hi, hj, rfl, rfl⟩
  · intro i j hi hj
    exact ⟨_, (mem_mandelbrot _ _ _ _ _ _ _).mpr ⟨j, hj, i, hi, rfl⟩, rfl, rfl⟩

/-! ### Counts stay within the cap -/

theorem img_data_mem (l : List (PixelWrite α)) (k v : Nat) (h : img_data l k = some v) :
    ∃ e, e ∈ l ∧ e.cell = k ∧ e.value = v := by
  unfold img_data at h
  cases hfind : List.find? (fun e => e.cell == k) l with
  | none => rw [hfind] at h; cases h
  | some e =>
    rw [hfind] at h
    simp only [Option.map_some', Option.some.injEq] at h
    have hc : e.cell = k := by
      have := List.find?_some hfind
      simpa using this
    exact ⟨e, List.mem_of_find?_eq_some hfind, hc, h⟩

/-- C19. Counts stay within the cap: for every cap `max_iter` that is an
`unsigned short` and every sample point, the loop leaves `iter <= max_iter`
(so `iter <= 65535`) and has stopped after at most `max_iter` turns (allowing it
more turns changes nothing); the store of the `unsigned int iter` into the
`unsigned short` cell keeps its value; and every value stored, and every cell
of the buffer, by `mandelbrot_multi` under any schedule and by `mandelbrot`, is
`<= max_iter`. -/
theorem counts_within_cap (max_iter : Nat) (hmax : max_iter < 2 ^ 16) :
    (∀ c_real c_img : α,
        escape_iter max_iter c_real c_img ≤ max_iter ∧
        escape_iter max_iter c_real c_img ≤ 65535 ∧
        (∀ extra, escape_loop max_iter c_real c_img (max_iter + extra) c_real c_img 0
            = escape_iter max_iter c_real c_img) ∧
        core_pixel max_iter c_real c_img = escape_iter max_iter c_real c_img) ∧
    (∀ (minx miny xsize : α) (dimx dimy W : Nat) (sched : List Nat),
        (∀ e, e ∈ (mandelbrot_multi minx miny xsize dimx dimy max_iter W sched).writes →
          e.value ≤ max_iter) ∧
        (∀ k v, img_data (mandelbrot_multi minx miny xsize dimx dimy max_iter W sched).writes k
          = some v → v ≤ max_iter)) ∧
    (∀ (minx miny xsize : α) (dimx dimy : Nat),
        (∀ e, e ∈ mandelbrot minx miny xsize dimx dimy max_iter → e.value ≤ max_iter) ∧
        (∀ k v, img_data (mandelbrot minx miny xsize dimx dimy max_iter) k = some v →
          v ≤ max_iter)) := by
  have hmax2 : max_iter < USHORT_MOD := by simpa [USHORT_MOD] using hmax
  have hcore : ∀ (minx miny xsize : α) (dimx dimy W : Nat) (sched : List Nat) (e : PixelWrite α),
      e ∈ (mandelbrot_multi minx miny xsize dimx dimy max_iter W sched).writes →
      e.value ≤ max_iter := by
    intro minx miny xsize dimx dimy W sched e he
    have inv := coreInv_run (mandelbrot_multi_params minx miny xsize dimx dimy max_iter)
      sched _ (coreInv_init _ W)
    rw [(inv.stores e he).value_eq]
    simp only [mandelbrot_multi_params]
    rw [core_pixel_eq max_iter hmax2]
    exact escape_iter_le max_iter _ _
  have hseq : ∀ (minx miny xsize : α) (dimx dimy : Nat) (e : PixelWrite α),
      e ∈ mandelbrot minx miny xsize dimx dimy max_iter → e.value ≤ max_iter := by
    intro minx miny xsize dimx dimy e he
    rw [mem_mandelbrot] at he
    obtain ⟨j, hj, i, hi, rfl⟩ := he
    exact escape_iter_le max_iter _ _
  refine ⟨?_, ?_, ?_⟩
  · intro c_real c_img
    have hle := escape_iter_le max_iter c_real c_img
    refine ⟨hle, by omega, ?_, core_pixel_eq max_iter hmax2 c_real c_img⟩
    intro extra
    have := escape_loop_fuel max_iter c_real c_img max_iter c_real c_img 0 extra (by omega)
    exact this
  · intro minx miny xsize dimx dimy W sched
    refine ⟨hcore minx miny xsize dimx dimy W sched, ?_⟩
    intro k v h
    obtain ⟨e, he, _, hv⟩ := img_data_mem _ k v h
    rw [← hv]
    exact hcore minx miny xsize dimx dimy W sched e he
  · intro minx miny xsize dimx dimy
    refine ⟨hseq minx miny xsize dimx dimy, ?_⟩
    intro k v h
    obtain ⟨e, he, _, hv⟩ := img_data_mem _ k v h
    rw [← hv]
    exact hseq minx miny xsize dimx dimy e he

end RenderTheorems

/-! ### The escape-time kernel (exact arithmetic) -/

theorem escape_loop_spec (max_iter : Nat) (c : ℚ × ℚ) :
    ∀ (fuel iter : Nat) (z : ℚ × ℚ), fuel + iter = max_iter → z = spec_orbit c iter →
      (∀ m, m < iter → ¬ spec_escaped MAX_BOUND c m) →
      escape_loop max_iter c.1 c.2 fuel z.1 z.2 iter ≤ max_iter ∧
      (∀ m, m < escape_loop max_iter c.1 c.2 fuel z.1 z.2 iter →
          ¬ spec_escaped MAX_BOUND c m) ∧
      (escape_loop max_iter c.1 c.2 fuel z.1 z.2 iter < max_iter →
          spec_escaped MAX_BOUND c (escape_loop max_iter c.1 c.2 fuel z.1 z.2 iter)) := by
  intro fuel
  induction fuel with
  | zero =>
    intro iter z hf hz hbelow
    simp only [escape_loop]
    exact ⟨by omega, hbelow, fun h => by omega⟩
  | succ fuel ih =>
    intro iter z hf hz hbelow
    simp only [escape_loop]
    by_cases hg : z.1 * z.1 + z.2 * z.2 < ((MAX_BOUND : Nat) : ℚ) ∧ iter < max_iter
    · rw [if_pos hg]
      have hz' : (z.1 * z.1 - z.2 * z.2 + c.1, ((2 : Nat) : ℚ) * z.1 * z.2 + c.2)
          = spec_orbit c (iter + 1) := by
        simp only [spec_orbit, cmul, ← hz]
        ext
        · rfl
        · simp only; push_cast; ring
      have hbelow' : ∀ m, m < iter + 1 → ¬ spec_escaped MAX_BOUND c m := by
        intro m hm
        by_cases hmi : m < iter
        · exact hbelow m hmi
        · have : m = iter := by omega
          subst this
          simp only [spec_escaped, normSq, ← hz, not_le]
          exact hg.1
      exact ih (iter + 1) (z.1 * z.1 - z.2 * z.2 + c.1, ((2 : Nat) : ℚ) * z.1 * z.2 + c.2)
        (by omega) hz' hbelow'
    · rw [if_neg hg]
      refine ⟨by omega, hbelow, ?_⟩
      intro hlt
      simp only [spec_escaped, normSq, ← hz]
      by_contra hcon
      exact hg ⟨not_le.mp hcon, hlt⟩

theorem escape_iter_eq_spec (max_iter : Nat) (c_real c_img : ℚ) :
    escape_iter max_iter c_real c_img
      = spec_escape_count MAX_BOUND (c_real, c_img) max_iter := by
  obtain ⟨h1, h2, h3⟩ := escape_loop_spec max_iter (c_real, c_img) max_iter 0
    (c_real, c_img) (by omega) rfl (fun m hm => absurd hm (Nat.not_lt_zero m))
  change escape_iter max_iter c_real c_img ≤ max_iter at h1
  change ∀ m, m < escape_iter max_iter c_real c_img → _ at h2
  change escape_iter max_iter c_real c_img < max_iter → _ at h3
  unfold spec_escape_count
  split
  · rename_i hex
    symm
    rw [Nat.find_eq_iff]
    refine ⟨⟨h1, ?_⟩, ?_⟩
    · by_cases hlt : escape_iter max_iter c_real c_img < max_iter
      · exact h3 hlt
      · obtain ⟨n, hn, hesc⟩ := hex
        have hnn : ¬ n < escape_iter max_iter c_real c_img := fun hh => h2 n hh hesc
        have : n = escape_iter max_iter c_real c_img := by omega
        rw [← this]; exact hesc
    · intro m hm hcon
      exact h2 m hm hcon.2
  · rename_i hex
    by_contra hne
    have hlt : escape_iter max_iter c_real c_img < max_iter := by omega
    exact hex ⟨_, h1, h3 hlt⟩

/-- C2. Escape-time kernel, arithmetic read as exact: for every cap `max_iter`
(an `unsigned short`) the count stored for a sample point, by `mandelbrot_core`
in every render and schedule and by `mandelbrot`, is the smallest `n <= max_iter`
at which the orbit `z_0 = c`, `z_{k+1} = z_k^2 + c` has `|z_n|^2 >= MAX_BOUND`,
and `max_iter` when there is none; this holds of the loop at every point `c`. -/
theorem escape_time_kernel (max_iter : Nat) (hmax : max_iter < 2 ^ 16) :
    (∀ (minx miny xsize : ℚ) (dimx dimy W : Nat) (sched : List Nat) (e : PixelWrite ℚ),
        e ∈ (mandelbrot_multi minx miny xsize dimx dimy max_iter W sched).writes →
        e.value = spec_escape_count MAX_BOUND (e.c_real, e.c_img) max_iter) ∧
    (∀ (minx miny xsize : ℚ) (dimx dimy : Nat) (e : PixelWrite ℚ),
        e ∈ mandelbrot minx miny xsize dimx dimy max_iter →
        e.value = spec_escape_count MAX_BOUND (e.c_real, e.c_img) max_iter) ∧
    (∀ c_real c_img : ℚ,
        core_pixel max_iter c_real c_img
          = spec_escape_count MAX_BOUND (c_real, c_img) max_iter ∧
        escape_iter max_iter c_real c_img
          = spec_escape_count MAX_BOUND (c_real, c_img) max_iter) := by
  have hmax2 : max_iter < USHORT_MOD := by simpa [USHORT_MOD] using hmax
  refine ⟨?_, ?_, ?_⟩
  · intro minx miny xsize dimx dimy W sched e he
    have inv := coreInv_run (mandelbrot_multi_params minx miny xsize dimx dimy max_iter)
      sched _ (coreInv_init _ W)
    have hv := (inv.stores e he).value_eq
    rw [hv]
    simp only [mandelbrot_multi_params]
    rw [core_pixel_eq max_iter hmax2, escape_iter_eq_spec]
  · intro minx miny xsize dimx dimy e he
    rw [mem_mandelbrot] at he
    obtain ⟨j, hj, i, hi, rfl⟩ := he
    simp only [mandelbrot_write]
    rw [escape_iter_eq_spec]
  · intro c_real c_img
    rw [core_pixel_eq max_iter hmax2, escape_iter_eq_spec]
    exact ⟨rfl, rfl⟩

/-- Witness for C2 at the cap of `main`, `max_iter = 1000`. -/
theorem escape_time_kernel_witness :
    1000 < 2 ^ 16 ∧
    ((∀ (minx miny xsize : ℚ) (dimx dimy W : Nat) (sched : List Nat) (e : PixelWrite ℚ),
        e ∈ (mandelbrot_multi minx miny xsize dimx dimy 1000 W sched).writes →
        e.value = spec_escape_count MAX_BOUND (e.c_real, e.c_img) 1000) ∧
    (∀ (minx miny xsize : ℚ) (dimx dimy : Nat) (e : PixelWrite ℚ),
        e ∈ mandelbrot minx miny xsize dimx dimy 1000 →
        e.value = spec_escape_count MAX_BOUND (e.c_real, e.c_img) 1000) ∧
    (∀ c_real c_img : ℚ,
        core_pixel 1000 c_real c_img = spec_escape_count MAX_BOUND (c_real, c_img) 1000 ∧
        escape_iter 1000 c_real c_img = spec_escape_count MAX_BOUND (c_real, c_img) 1000)) :=
  ⟨by norm_num, escape_time_kernel 1000 (by norm_num)⟩

/-- C3, at the failing input `dimx = 1`, `dimy = 2^32 - 1`, two threads (so
`dimx * dimy <= 2^32` and the thread count is `>= 1`): some schedule ends with
every thread returned and cell 0 stored at least twice. -/
theorem exclusive_population_fails_on_cursor_wrap :
    1 * 4294967295 ≤ 2 ^ 32 ∧ 1 ≤ 2 ∧
    ∃ sched,
      joined 2 (mandelbrot_multi (-5 / 2 : ℚ) (-1) (7 / 2) 1 4294967295 1000 2 sched) ∧
      2 ≤ store_count
        (mandelbrot_multi (-5 / 2 : ℚ) (-1) (7 / 2) 1 4294967295 1000 2 sched).writes 0 := by
  refine ⟨by norm_num, by norm_num, ?_⟩
  exact cursor_wrap_stores_twice
    (mandelbrot_multi_params (-5 / 2 : ℚ) (-1) (7 / 2) 1 4294967295 1000)
    (by simp [mandelbrot_multi_params]) (by simp [mandelbrot_multi_params])
    (by simp [mandelbrot_multi_params, UINT_MOD])

/-- C4, at the failing input `dimx = 2^31`, `dimy = 3`, viewport
`minx = miny = 0`, `xsize = 2^31 * 2000`, `max_iter = 1` (exact arithmetic): a
complete run with one thread leaves 0 in cell 0 and a complete run with two
threads leaves 1 there. -/
theorem determinism_fails_on_index_wrap :
    ∃ schedA schedB,
      joined 1 (mandelbrot_multi (0 : ℚ) 0 4294967296000 2147483648 3 1 1 schedA) ∧
      joined 2 (mandelbrot_multi (0 : ℚ) 0 4294967296000 2147483648 3 1 2 schedB) ∧
      img_data (mandelbrot_multi (0 : ℚ) 0 4294967296000 2147483648 3 1 1 schedA).writes 0
        = some 0 ∧
      img_data (mandelbrot_multi (0 : ℚ) 0 4294967296000 2147483648 3 1 2 schedB).writes 0
        = some 1 := by
  obtain ⟨a, b, h1, h2, h3, h4⟩ := aliasing_rows
    (mandelbrot_multi_params (0 : ℚ) 0 4294967296000 2147483648 3 1) rfl rfl
  refine ⟨a, b, h1, h2, ?_, ?_⟩
  · unfold mandelbrot_multi
    rw [h3]
    simp only [mandelbrot_multi_params, core_pixel, escape_iter, escape_loop, MAX_BOUND,
      USHORT_MOD]
    norm_num
  · unfold mandelbrot_multi
    rw [h4]
    simp only [mandelbrot_multi_params, core_pixel, escape_iter, escape_loop, MAX_BOUND,
      USHORT_MOD]
    norm_num

/-! ### The intensity map -/

theorem float_to_ushort_of_range (x : ℚ) (h0 : 0 ≤ x) (h1 : x ≤ 65535) :
    float_to_ushort x = ⌊x⌋.toNat ∧ float_to_ushort x ≤ 65535 := by
  have hf0 : 0 ≤ ⌊x⌋ := Int.floor_nonneg.mpr h0
  have hf1 : ⌊x⌋ ≤ 65535 := by
    have : ⌊x⌋ ≤ ⌊(65535 : ℚ)⌋ := Int.floor_le_floor h1
    have h2 : ⌊(65535 : ℚ)⌋ = 65535 := by
      rw [Int.floor_eq_iff]; norm_num
    omega
  have hmod : ⌊x⌋ % 65536 = ⌊x⌋ := Int.emod_eq_of_lt hf0 (by omega)
  unfold float_to_ushort
  rw [if_pos h0, hmod]
  exact ⟨rfl, by omega⟩

theorem float_to_ushort_lt (x : ℚ) : float_to_ushort x < 65536 := by
  unfold float_to_ushort
  have h1 : (if 0 ≤ x then ⌊x⌋ else ⌈x⌉) % 65536 < 65536 :=
    Int.emod_lt_of_pos _ (by norm_num)
  have h0 : 0 ≤ (if 0 ≤ x then ⌊x⌋ else ⌈x⌉) % 65536 :=
    Int.emod_nonneg _ (by norm_num)
  omega

theorem map_colour_value_lt (fl : ℚ → ℚ) (index : Nat) : map_colour_value fl index < 65536 :=
  float_to_ushort_lt _

theorem flip_endian_eq (v : Nat) (hv : v < 65536) :
    flip_endian v = (v % 256) * 256 + v / 256 := by
  have hhigh : (v &&& 0xff00) >>> 8 = (v / 256) % 256 := by
    have h : (0xff00 : Nat) = (2 ^ 8 - 1) <<< 8 := by decide
    have h2 : (256 : Nat) = 2 ^ 8 := by norm_num
    apply Nat.eq_of_testBit_eq
    intro i
    rw [h, h2, ← Nat.shiftRight_eq_div_pow]
    simp only [Nat.testBit_shiftRight, Nat.testBit_and, Nat.testBit_shiftLeft,
      Nat.testBit_two_pow_sub_one, Nat.testBit_mod_two_pow]
    by_cases hi : i < 8 <;> simp [hi]
  have hlow : (v &&& 0x00ff) <<< 8 = (v % 256) * 256 := by
    have h : (0x00ff : Nat) = 2 ^ 8 - 1 := by decide
    rw [h, Nat.and_pow_two_sub_one_eq_mod, Nat.shiftLeft_eq]
  have hdiv : v / 256 % 256 = v / 256 := Nat.mod_eq_of_lt (by omega)
  have hlt : v % 256 * 256 < USHORT_MOD := by unfold USHORT_MOD; omega
  unfold flip_endian
  rw [hhigh, hlow, hdiv, Nat.mod_eq_of_lt hlt]
  have h3 : 2 ^ 8 * (v % 256) + v / 256 = 2 ^ 8 * (v % 256) ||| v / 256 :=
    Nat.mul_add_lt_is_or (by norm_num; omega) _
  rw [Nat.lor_comm, Nat.mul_comm (v % 256) 256]
  simpa using h3.symm

theorem fl_zero (fl : ℚ → ℚ) (hfix : ∀ n : ℕ, n < 16777216 → fl (n : ℚ) = (n : ℚ)) :
    fl 0 = 0 := by
  simpa using hfix 0 (by norm_num)

theorem fl_one (fl : ℚ → ℚ) (hfix : ∀ n : ℕ, n < 16777216 → fl (n : ℚ) = (n : ℚ)) :
    fl 1 = 1 := by
  simpa using hfix 1 (by norm_num)

theorem fl_65535 (fl : ℚ → ℚ) (hfix : ∀ n : ℕ, n < 16777216 → fl (n : ℚ) = (n : ℚ)) :
    fl 65535 = 65535 := by
  simpa using hfix 65535 (by norm_num)

theorem fl_max_iter (fl : ℚ → ℚ) (hfix : ∀ n : ℕ, n < 16777216 → fl (n : ℚ) = (n : ℚ)) :
    fl (MAX_ITER : ℚ) = 1000 := by
  simpa [MAX_ITER] using hfix 1000 (by norm_num)

theorem normalised_index_zero (fl : ℚ → ℚ)
    (hfix : ∀ n : ℕ, n < 16777216 → fl (n : ℚ) = (n : ℚ)) : normalised_index fl 0 = 1 := by
  unfold normalised_index
  rw [fl_max_iter fl hfix]
  simp [fl_zero fl hfix, fl_one fl hfix]

theorem normalised_index_max (fl : ℚ → ℚ)
    (hfix : ∀ n : ℕ, n < 16777216 → fl (n : ℚ) = (n : ℚ)) :
    normalised_index fl MAX_ITER = 0 := by
  unfold normalised_index
  rw [fl_max_iter fl hfix]
  simp [fl_zero fl hfix, fl_one fl hfix]

theorem product7_one (fl : ℚ → ℚ)
    (hfix : ∀ n : ℕ, n < 16777216 → fl (n : ℚ) = (n : ℚ)) : product7 fl 1 = 1 := by
  simp [product7, fl_one fl hfix]

theorem product7_zero (fl : ℚ → ℚ)
    (hfix : ∀ n : ℕ, n < 16777216 → fl (n : ℚ) = (n : ℚ)) : product7 fl 0 = 0 := by
  simp [product7, fl_zero fl hfix]

theorem float_to_ushort_zero : float_to_ushort 0 = 0 := by
  simp [float_to_ushort]

theorem float_to_ushort_65535 : float_to_ushort 65535 = 65535 := by
  have h := (float_to_ushort_of_range 65535 (by norm_num) (le_refl _)).1
  rw [h]
  have : ⌊(65535 : ℚ)⌋ = 65535 := by rw [Int.floor_eq_iff]; norm_num
  rw [this]; rfl

theorem map_colour_value_zero (fl : ℚ → ℚ)
    (hfix : ∀ n : ℕ, n < 16777216 → fl (n : ℚ) = (n : ℚ)) :
    map_colour_value fl 0 = 65535 := by
  unfold map_colour_value
  rw [normalised_index_zero fl hfix, product7_one fl hfix, fl_65535 fl hfix]
  simp [fl_65535 fl hfix, float_to_ushort_65535]

theorem map_colour_value_max (fl : ℚ → ℚ)
    (hfix : ∀ n : ℕ, n < 16777216 → fl (n : ℚ) = (n : ℚ)) :
    map_colour_value fl MAX_ITER = 0 := by
  unfold map_colour_value
  rw [normalised_index_max fl hfix, product7_zero fl hfix]
  simp [fl_zero fl hfix, float_to_ushort_zero]

theorem map_colour_value_exact (idx : Nat) :
    map_colour_value id idx
      = float_to_ushort (65535 * (1 - (idx : ℚ) / (MAX_ITER : ℚ)) ^ 7) := by
  simp only [map_colour_value, product7, normalised_index, id]
  congr 1
  ring

theorem map_colour_value_500 : map_colour_value id 500 = 511 := by
  rw [map_colour_value_exact]
  have hx : (65535 * (1 - ((500 : ℕ) : ℚ) / (MAX_ITER : ℚ)) ^ 7 : ℚ) = 65535 / 128 := by
    simp only [MAX_ITER]; norm_num
  rw [hx, (float_to_ushort_of_range _ (by norm_num) (by norm_num)).1]
  have : ⌊(65535 / 128 : ℚ)⌋ = 511 := by rw [Int.floor_eq_iff]; norm_num
  rw [this]; rfl

theorem escape_loop_origin (max_iter : Nat) :
    ∀ fuel iter : Nat, fuel + iter = max_iter →
      escape_loop max_iter (0 : ℚ) 0 fuel 0 0 iter = max_iter := by
  intro fuel
  induction fuel with
  | zero => intro iter h; simp only [escape_loop]; omega
  | succ fuel ih =>
    intro iter h
    have hlt : iter < max_iter := by omega
    simp only [escape_loop]
    rw [if_pos ⟨by simp [MAX_BOUND], hlt⟩]
    have := ih (iter + 1) (by omega)
    simpa using this

theorem escape_iter_origin (max_iter : Nat) : escape_iter max_iter (0 : ℚ) 0 = max_iter :=
  escape_loop_origin max_iter max_iter 0 (by omega)

/-! ### Monotonicity of the intensity -/

theorem fl_range (fl : ℚ → ℚ) (hmono : Monotone fl)
    (hfix : ∀ n : ℕ, n < 16777216 → fl (n : ℚ) = (n : ℚ)) (x : ℚ) (h0 : 0 ≤ x) (h1 : x ≤ 1) :
    0 ≤ fl x ∧ fl x ≤ 1 := by
  have a := hmono h0
  have b := hmono h1
  rw [fl_zero fl hfix] at a
  rw [fl_one fl hfix] at b
  exact ⟨a, b⟩

theorem fl_mul_mono (fl : ℚ → ℚ) (hmono : Monotone fl)
    (hfix : ∀ n : ℕ, n < 16777216 → fl (n : ℚ) = (n : ℚ)) (x y a b : ℚ)
    (hx : 0 ≤ x) (hxy : x ≤ y) (hy : y ≤ 1) (ha : 0 ≤ a) (hab : a ≤ b) (hb : b ≤ 1) :
    0 ≤ fl (x * a) ∧ fl (x * a) ≤ fl (y * b) ∧ fl (y * b) ≤ 1 := by
  have h1 : x * a ≤ y * b := mul_le_mul hxy hab ha (le_trans hx hxy)
  have h2 : 0 ≤ x * a := mul_nonneg hx ha
  have h3 : y * b ≤ 1 := by
    have := mul_le_mul hy hb (le_trans ha hab) (by norm_num : (0 : ℚ) ≤ 1)
    simpa using this
  exact ⟨(fl_range fl hmono hfix _ h2 (le_trans h1 h3)).1, hmono h1,
    (fl_range fl hmono hfix _ (le_trans h2 h1) h3).2⟩

theorem product7_mono (fl : ℚ → ℚ) (hmono : Monotone fl)
    (hfix : ∀ n : ℕ, n < 16777216 → fl (n : ℚ) = (n : ℚ)) (a b : ℚ)
    (ha : 0 ≤ a) (hab : a ≤ b) (hb : b ≤ 1) :
    0 ≤ product7 fl a ∧ product7 fl a ≤ product7 fl b ∧ product7 fl b ≤ 1 := by
  obtain ⟨p1, p2, p3⟩ := fl_mul_mono fl hmono hfix a b a b ha hab hb ha hab hb
  obtain ⟨q1, q2, q3⟩ := fl_mul_mono fl hmono hfix _ _ a b p1 p2 p3 ha hab hb
  obtain ⟨r1, r2, r3⟩ := fl_mul_mono fl hmono hfix _ _ a b q1 q2 q3 ha hab hb
  obtain ⟨s1, s2, s3⟩ := fl_mul_mono fl hmono hfix _ _ a b r1 r2 r3 ha hab hb
  obtain ⟨t1, t2, t3⟩ := fl_mul_mono fl hmono hfix _ _ a b s1 s2 s3 ha hab hb
  exact fl_mul_mono fl hmono hfix _ _ a b t1 t2 t3 ha hab hb

theorem normalised_index_anti (fl : ℚ → ℚ) (hmono : Monotone fl)
    (hfix : ∀ n : ℕ, n < 16777216 → fl (n : ℚ) = (n : ℚ)) (idx1 idx2 : Nat)
    (h12 : idx1 ≤ idx2) (h2 : idx2 ≤ MAX_ITER) :
    0 ≤ normalised_index fl idx2 ∧ normalised_index fl idx2 ≤ normalised_index fl idx1 ∧
      normalised_index fl idx1 ≤ 1 := by
  have hM : MAX_ITER = 1000 := rfl
  have e1 : fl (idx1 : ℚ) = idx1 := hfix idx1 (by omega)
  have e2 : fl (idx2 : ℚ) = idx2 := hfix idx2 (by omega)
  have c1 : (idx1 : ℚ) ≤ idx2 := by exact_mod_cast h12
  have c2 : (idx2 : ℚ) ≤ 1000 := by exact_mod_cast (hM ▸ h2)
  have c0 : (0 : ℚ) ≤ idx1 := by positivity
  have d1 : (idx1 : ℚ) / 1000 ≤ idx2 / 1000 := by
    apply div_le_div_of_nonneg_right c1; norm_num
  have d0 : (0 : ℚ) ≤ idx1 / 1000 := by positivity
  have d2 : (idx2 : ℚ) / 1000 ≤ 1 := by
    rw [div_le_one (by norm_num)]; exact c2
  obtain ⟨y1a, y1b⟩ := fl_range fl hmono hfix _ d0 (le_trans d1 d2)
  obtain ⟨y2a, y2b⟩ := fl_range fl hmono hfix _ (le_trans d0 d1) d2
  have y12 := hmono d1
  unfold normalised_index
  rw [fl_max_iter fl hfix, fl_one fl hfix, e1, e2]
  refine ⟨(fl_range fl hmono hfix _ (by linarith) (by linarith)).1, hmono (by linarith),
    (fl_range fl hmono hfix _ (by linarith) (by linarith)).2⟩

theorem scaled_range (fl : ℚ → ℚ) (hmono : Monotone fl)
    (hfix : ∀ n : ℕ, n < 16777216 → fl (n : ℚ) = (n : ℚ)) (x y : ℚ)
    (hx : 0 ≤ x) (hxy : x ≤ y) (hy : y ≤ 1) :
    0 ≤ fl (fl 65535 * x) ∧ fl (fl 65535 * x) ≤ fl (fl 65535 * y) ∧
      fl (fl 65535 * y) ≤ 65535 := by
  rw [fl_65535 fl hfix]
  have a : (0 : ℚ) ≤ 65535 * x := by positivity
  have b : 65535 * x ≤ 65535 * y := by linarith
  have c : 65535 * y ≤ 65535 := by linarith
  have a2 := hmono a
  have c2 := hmono c
  rw [fl_zero fl hfix] at a2
  rw [fl_65535 fl hfix] at c2
  exact ⟨a2, hmono b, c2⟩

/-! ### The PPM stream -/

theorem for_loop_append {β : Type} (f : Nat → List β) (n : Nat) (init : List β) :
    for_loop n (fun i out => out ++ f i) init = init ++ (List.range n).flatMap f := by
  induction n with
  | zero => simp [for_loop_zero]
  | succ n ih => rw [for_loop_succ, ih]; simp [List.range_succ]

theorem length_flatMap_const {β γ : Type} (f : β → List γ) (c : Nat)
    (h : ∀ x, (f x).length = c) (l : List β) : (l.flatMap f).length = l.length * c := by
  induction l with
  | nil => simp
  | cons a l ih => simp [List.flatMap_cons, ih, h, Nat.succ_mul, Nat.add_comm]

/-- The body of the stream: the six bytes of every pixel, rows in order and
columns in order inside a row. -/
theorem ppm_body_eq (fl : ℚ → ℚ) (host : Endian) (dimx dimy : Nat) (img : Nat → Nat) :
    ppm_body fl host dimx dimy img
      = (List.range dimy).flatMap (fun j => (List.range dimx).flatMap
          (fun i => pixel_bytes fl host (img ((i + j * dimx) % UINT_MOD)))) := by
  unfold ppm_body
  have h : ∀ (j : Nat) (out : List Nat),
      for_loop dimx (fun i out2 =>
          out2 ++ pixel_bytes fl host (img ((i + j * dimx) % UINT_MOD))) out
        = out ++ (List.range dimx).flatMap
            (fun i => pixel_bytes fl host (img ((i + j * dimx) % UINT_MOD))) :=
    fun j out => for_loop_append _ dimx out
  simp only [h]
  rw [for_loop_append]
  simp

theorem pixel_bytes_length (fl : ℚ → ℚ) (host : Endian) (index : Nat) :
    (pixel_bytes fl host index).length = 6 := by
  cases host <;> simp [pixel_bytes, map_colour, ushort_bytes]

theorem ppm_body_length (fl : ℚ → ℚ) (host : Endian) (dimx dimy : Nat) (img : Nat → Nat) :
    (ppm_body fl host dimx dimy img).length = dimx * dimy * 6 := by
  rw [ppm_body_eq]
  rw [length_flatMap_const _ (dimx * 6)]
  · simp only [List.length_range]; ring
  · intro j
    rw [length_flatMap_const _ 6 (fun i => pixel_bytes_length fl host _)]
    simp

/-- A sample as `write_ppm` emits it on a little-endian host: high byte of the
intensity first. -/
theorem pixel_bytes_little (fl : ℚ → ℚ) (index : Nat) :
    pixel_bytes fl Endian.little index
      = [map_colour_value fl index >>> 8, map_colour_value fl index &&& 0xff,
         map_colour_value fl index >>> 8, map_colour_value fl index &&& 0xff,
         map_colour_value fl index >>> 8, map_colour_value fl index &&& 0xff] := by
  have hv := map_colour_value_lt fl index
  have h1 : flip_endian (map_colour_value fl index) % 256 = map_colour_value fl index >>> 8 := by
    rw [flip_endian_eq _ hv, Nat.shiftRight_eq_div_pow]
    omega
  have h2 : flip_endian (map_colour_value fl index) / 256 % 256
      = map_colour_value fl index &&& 0xff := by
    have h : (0xff : Nat) = 2 ^ 8 - 1 := by decide
    have hq : (map_colour_value fl index % 256 * 256 + map_colour_value fl index / 256) / 256
        = map_colour_value fl index % 256 := by
      rw [Nat.add_comm, Nat.add_mul_div_right _ _ (by norm_num : 0 < 256)]
      have : map_colour_value fl index / 256 / 256 = 0 := by omega
      omega
    rw [flip_endian_eq _ hv, h, Nat.and_pow_two_sub_one_eq_mod, hq]
    omega
  simp [pixel_bytes, map_colour, ushort_bytes, h1, h2]

/-- A sample as `write_ppm` emits it on a big-endian host: low byte of the
intensity first. -/
theorem pixel_bytes_big (fl : ℚ → ℚ) (index : Nat) :
    pixel_bytes fl Endian.big index
      = [map_colour_value fl index &&& 0xff, map_colour_value fl index >>> 8,
         map_colour_value fl index &&& 0xff, map_colour_value fl index >>> 8,
         map_colour_value fl index &&& 0xff, map_colour_value fl index >>> 8] := by
  have hv := map_colour_value_lt fl index
  have h1 : flip_endian (map_colour_value fl index) % 256 = map_colour_value fl index >>> 8 := by
    rw [flip_endian_eq _ hv, Nat.shiftRight_eq_div_pow]
    omega
  have h2 : flip_endian (map_colour_value fl index) / 256 % 256
      = map_colour_value fl index &&& 0xff := by
    have h : (0xff : Nat) = 2 ^ 8 - 1 := by decide
    have hq : (map_colour_value fl index % 256 * 256 + map_colour_value fl index / 256) / 256
        = map_colour_value fl index % 256 := by
      rw [Nat.add_comm, Nat.add_mul_div_right _ _ (by norm_num : 0 < 256)]
      have : map_colour_value fl index / 256 / 256 = 0 := by omega
      omega
    rw [flip_endian_eq _ hv, h, Nat.and_pow_two_sub_one_eq_mod, hq]
    omega
  simp [pixel_bytes, map_colour, ushort_bytes, h1, h2]

/-- For sizes below 2^31 the stream is the header with the decimal sizes followed
by `dimx * dimy * 6` bytes of samples. -/
theorem write_ppm_layout (fl : ℚ → ℚ) (host : Endian) (dimx dimy : Nat) (img : Nat → Nat)
    (hx : dimx < 2 ^ 31) (hy : dimy < 2 ^ 31) :
    write_ppm fl host dimx dimy img
      = ascii ("P6\n" ++ Nat.repr dimx ++ " " ++ Nat.repr dimy ++ "\n65535\n") ++
        (List.range dimy).flatMap (fun j => (List.range dimx).flatMap
          (fun i => pixel_bytes fl host (img ((i + j * dimx) % UINT_MOD)))) ∧
    (ppm_body fl host dimx dimy img).length = dimx * dimy * 6 := by
  refine ⟨?_, ppm_body_length fl host dimx dimy img⟩
  unfold write_ppm ppm_header printf_d
  rw [ppm_body_eq, if_pos (by simpa using hx), if_pos (by simpa using hy)]

theorem ascii_append (a b : String) : ascii (a ++ b) = ascii a ++ ascii b := by
  simp [ascii]

/-- For every width of 2^31 or more, whatever the height, the header starts
`P6`, newline, minus sign. -/
theorem ppm_header_negative (dimx dimy : Nat) (h1 : 2147483648 ≤ dimx) :
    ppm_header dimx dimy
      = ascii "P6\n-" ++
        ascii (Nat.repr (UINT_MOD - dimx) ++ " " ++ printf_d dimy ++ "\n65535\n") := by
  unfold ppm_header
  have : printf_d dimx = "-" ++ Nat.repr (UINT_MOD - dimx) := by
    unfold printf_d; rw [if_neg (by omega)]
  rw [this, ← ascii_append]
  congr 1

/-- C5, at the failing input `dimx = 2^31`, `dimy = 0` (an empty buffer): the
header `write_ppm` emits shows the width as `-2147483648`, not as the decimal
`2147483648` the claim requires. -/
theorem write_ppm_header_negative_width (fl : ℚ → ℚ) (host : Endian) (img : Nat → Nat) :
    write_ppm fl host 2147483648 0 img = ascii "P6\n-2147483648 0\n65535\n" ∧
    write_ppm fl host 2147483648 0 img
      ≠ ascii ("P6\n" ++ Nat.repr 2147483648 ++ " " ++ Nat.repr 0 ++ "\n65535\n") := by
  have h : write_ppm fl host 2147483648 0 img = ascii "P6\n-2147483648 0\n65535\n" := by
    unfold write_ppm
    rw [ppm_body_eq]
    simp only [List.range_zero, List.flatMap_nil, List.append_nil]
    decide
  refine ⟨h, ?_⟩
  rw [h]
  decide

/-- C6, at the failing input `idx = 500` on a host that stores `unsigned short`
big-endian: the intensity is 511 = 0x01ff, whose big-endian bytes are 1 then 255,
and `write_ppm` emits 255 then 1 for each channel. -/
theorem big_endian_host_swaps_sample_bytes :
    500 ≤ MAX_ITER ∧ map_colour_value id 500 = 511 ∧
    (511 >>> 8 = 1 ∧ 511 &&& 0xff = 255) ∧
    pixel_bytes id Endian.big 500 = [255, 1, 255, 1, 255, 1] := by
  refine ⟨by decide, map_colour_value_500, ⟨by decide, by decide⟩, ?_⟩
  rw [pixel_bytes_big, map_colour_value_500]
  decide

/-- C8 as amended: `map_colour` normalises by the compiled-in `MAX_ITER = 1000`.
For every rounding `fl` that is exact on the integers below 2^24, the cell value
`MAX_ITER` gives 0 and the cell value 0 gives 65535, in all three channels, before
and after the byte swap. -/
theorem boundary_intensities (fl : ℚ → ℚ)
    (hfix : ∀ n : ℕ, n < 2 ^ 24 → fl (n : ℚ) = (n : ℚ)) :
    (map_colour_value fl MAX_ITER = 0 ∧ map_colour fl MAX_ITER = [0, 0, 0]) ∧
    (map_colour_value fl 0 = 65535 ∧ map_colour fl 0 = [65535, 65535, 65535]) := by
  have hfix2 : ∀ n : ℕ, n < 16777216 → fl (n : ℚ) = (n : ℚ) := by
    intro n hn; exact hfix n (by simpa using hn)
  have e0 : flip_endian 0 = 0 := by decide
  have e1 : flip_endian 65535 = 65535 := by decide
  refine ⟨⟨map_colour_value_max fl hfix2, ?_⟩, ⟨map_colour_value_zero fl hfix2, ?_⟩⟩
  · simp only [map_colour, map_colour_value_max fl hfix2, e0]
  · simp only [map_colour, map_colour_value_zero fl hfix2, e1]

/-- Witness for C8 as amended: exact arithmetic. -/
theorem boundary_intensities_witness :
    (∀ n : ℕ, n < 2 ^ 24 → id (n : ℚ) = (n : ℚ)) ∧
    ((map_colour_value id MAX_ITER = 0 ∧ map_colour id MAX_ITER = [0, 0, 0]) ∧
     (map_colour_value id 0 = 65535 ∧ map_colour id 0 = [65535, 65535, 65535])) :=
  ⟨fun _ _ => rfl, boundary_intensities id (fun _ _ => rfl)⟩

/-- C8 fails as stated for a render run with `max_iter = 500`: the point
`c = 0` gets the count 500 = `max_iter`, and `map_colour` maps 500 to the
intensity 511 (stored byte-swapped as 65281), not to 0. -/
theorem boundary_intensity_ignores_render_cap :
    (1 ≤ 500 ∧ core_pixel 500 (0 : ℚ) 0 = 500) ∧
    map_colour_value id 500 = 511 ∧ map_colour id 500 = [65281, 65281, 65281] := by
  refine ⟨⟨by decide, ?_⟩, map_colour_value_500, ?_⟩
  · rw [core_pixel_eq 500 (by decide), escape_iter_origin]
  · simp only [map_colour, map_colour_value_500]
    decide

/-- C9. Monotone intensity: for every rounding `fl` of the single precision
arithmetic that is monotone and exact on the integers below 2^24, and every
`idx1 < idx2 <= MAX_ITER`, the value of line 14 for `idx1` is at least the value
for `idx2`. -/
theorem intensity_monotone (fl : ℚ → ℚ) (hmono : Monotone fl)
    (hfix : ∀ n : ℕ, n < 2 ^ 24 → fl (n : ℚ) = (n : ℚ)) (idx1 idx2 : Nat)
    (h12 : idx1 < idx2) (h2 : idx2 ≤ MAX_ITER) :
    map_colour_value fl idx2 ≤ map_colour_value fl idx1 := by
  have hfix2 : ∀ n : ℕ, n < 16777216 → fl (n : ℚ) = (n : ℚ) := by
    intro n hn; exact hfix n (by simpa using hn)
  obtain ⟨n0, n12, n1⟩ :=
    normalised_index_anti fl hmono hfix2 idx1 idx2 (Nat.le_of_lt h12) h2
  obtain ⟨p0, p12, p1⟩ := product7_mono fl hmono hfix2 _ _ n0 n12 n1
  obtain ⟨x0, x12, x1⟩ := scaled_range fl hmono hfix2 _ _ p0 p12 p1
  unfold map_colour_value
  rw [(float_to_ushort_of_range _ x0 (le_trans x12 x1)).1,
    (float_to_ushort_of_range _ (le_trans x0 x12) x1).1]
  exact Int.toNat_le_toNat (Int.floor_le_floor x12)

/-- Witness for C9: exact arithmetic, `idx1 = 250`, `idx2 = 500`. -/
theorem intensity_monotone_witness :
    (Monotone (id : ℚ → ℚ) ∧ (∀ n : ℕ, n < 2 ^ 24 → id (n : ℚ) = (n : ℚ)) ∧
      250 < 500 ∧ 500 ≤ MAX_ITER) ∧
    map_colour_value id 500 ≤ map_colour_value id 250 :=
  ⟨⟨monotone_id, fun _ _ => rfl, by decide, by decide⟩,
   intensity_monotone id monotone_id (fun _ _ => rfl) 250 500 (by decide) (by decide)⟩

/-! ### The coordinate mapping (exact arithmetic) -/

theorem iterate_add_eq (x inc : ℚ) (i : Nat) :
    (fun c => c + inc)^[i] x = x + (i : ℚ) * inc := by
  induction i with
  | zero => simp
  | succ i ih =>
    rw [Function.iterate_succ_apply', ih]
    push_cast
    ring

theorem escape_iter_two (max_iter : Nat) (h : 3 ≤ max_iter) :
    escape_iter max_iter (2 : ℚ) 0 = 3 := by
  obtain ⟨k, rfl⟩ : ∃ k, max_iter = k + 3 := ⟨max_iter - 3, by omega⟩
  simp only [escape_iter, escape_loop, MAX_BOUND]
  norm_num
  cases k with
  | zero => rfl
  | succ k => simp only [escape_loop, MAX_BOUND]; norm_num

/-- C11 as amended: with `MAX_BOUND = 1000000` and every cap `max_iter >= 5`,
the count stored for `c = 2 + 0i` is 3, by `mandelbrot_core` and by `mandelbrot`:
the orbit is 2, 6, 38, 1446 and its squared modulus 4, 36, 1444, 2090916 first
reaches the bound at iteration 3. -/
theorem kernel_at_two (max_iter : Nat) (h : 5 ≤ max_iter) :
    (core_pixel max_iter (2 : ℚ) 0 = 3 ∧ escape_iter max_iter (2 : ℚ) 0 = 3) ∧
    (spec_orbit (2, 0) 1 = (6, 0) ∧ spec_orbit (2, 0) 2 = (38, 0) ∧
      spec_orbit (2, 0) 3 = (1446, 0)) ∧
    (¬ spec_escaped MAX_BOUND (2, 0) 0 ∧ ¬ spec_escaped MAX_BOUND (2, 0) 1 ∧
      ¬ spec_escaped MAX_BOUND (2, 0) 2 ∧ spec_escaped MAX_BOUND (2, 0) 3) := by
  have e := escape_iter_two max_iter (by omega)
  have o1 : spec_orbit (2, 0) 1 = (6, 0) := by
    simp only [spec_orbit, cmul]; norm_num
  have o2 : spec_orbit (2, 0) 2 = (38, 0) := by
    rw [spec_orbit, o1]; simp only [cmul]; norm_num
  have o3 : spec_orbit (2, 0) 3 = (1446, 0) := by
    rw [spec_orbit, o2]; simp only [cmul]; norm_num
  refine ⟨⟨?_, e⟩, ⟨o1, o2, o3⟩, ?_, ?_, ?_, ?_⟩
  · unfold core_pixel; rw [e]; rfl
  · simp only [spec_escaped, normSq, spec_orbit, MAX_BOUND]; norm_num
  · simp only [spec_escaped, normSq, o1, MAX_BOUND]; norm_num
  · simp only [spec_escaped, normSq, o2, MAX_BOUND]; norm_num
  · simp only [spec_escaped, normSq, o3, MAX_BOUND]; norm_num

/-- Witness for C11 as amended, at the cap of `main`. -/
theorem kernel_at_two_witness :
    5 ≤ 1000 ∧
    ((core_pixel 1000 (2 : ℚ) 0 = 3 ∧ escape_iter 1000 (2 : ℚ) 0 = 3) ∧
    (spec_orbit (2, 0) 1 = (6, 0) ∧ spec_orbit (2, 0) 2 = (38, 0) ∧
      spec_orbit (2, 0) 3 = (1446, 0)) ∧
    (¬ spec_escaped MAX_BOUND (2, 0) 0 ∧ ¬ spec_escaped MAX_BOUND (2, 0) 1 ∧
      ¬ spec_escaped MAX_BOUND (2, 0) 2 ∧ spec_escaped MAX_BOUND (2, 0) 3)) :=
  ⟨by decide, kernel_at_two 1000 (by decide)⟩

/-- C11 fails as stated at `max_iter = 5`: the count stored for `c = 2 + 0i`
is 3, not 1; after one iteration `z = 6` and `|z|^2 = 36` is below the bound. -/
theorem kernel_at_two_is_not_one :
    5 ≤ 5 ∧ core_pixel 5 (2 : ℚ) 0 = 3 ∧ core_pixel 5 (2 : ℚ) 0 ≠ 1 ∧
    ¬ spec_escaped MAX_BOUND (2, 0) 1 := by
  have e : core_pixel 5 (2 : ℚ) 0 = 3 := by
    unfold core_pixel; rw [escape_iter_two 5 (by decide)]; rfl
  refine ⟨by decide, e, by rw [e]; decide, ?_⟩
  simp only [spec_escaped, normSq, spec_orbit, cmul, MAX_BOUND]; norm_num

theorem escape_loop_state_origin (max_iter : Nat) :
    ∀ fuel iter : Nat, fuel + iter = max_iter →
      escape_loop_state max_iter (0 : ℚ) 0 fuel 0 0 iter = (0, 0, max_iter) := by
  intro fuel
  induction fuel with
  | zero =>
    intro iter h
    have : iter = max_iter := by omega
    simp only [escape_loop_state, this]
  | succ fuel ih =>
    intro iter h
    have hlt : iter < max_iter := by omega
    simp only [escape_loop_state]
    rw [if_pos ⟨by simp [MAX_BOUND], hlt⟩]
    have := ih (iter + 1) (by omega)
    simpa using this

theorem spec_orbit_origin (n : Nat) : spec_orbit (0, 0) n = (0, 0) := by
  induction n with
  | zero => rfl
  | succ n ih => rw [spec_orbit, ih]; simp [cmul]

/-- C12. Kernel at `c = 0 + 0i`: for every cap `max_iter >= 1` (an `unsigned
short`) the orbit stays at 0, the loop is left with `z = 0` and
`iter = max_iter`, and the count stored, by `mandelbrot_core` and by
`mandelbrot`, equals `max_iter`. -/
theorem kernel_at_origin (max_iter : Nat) (h1 : 1 ≤ max_iter) (hmax : max_iter < 2 ^ 16) :
    (∀ n, spec_orbit (0, 0) n = (0, 0)) ∧
    escape_loop_state max_iter (0 : ℚ) 0 max_iter 0 0 0 = (0, 0, max_iter) ∧
    core_pixel max_iter (0 : ℚ) 0 = max_iter ∧
    escape_iter max_iter (0 : ℚ) 0 = max_iter := by
  have hmax2 : max_iter < USHORT_MOD := by simpa [USHORT_MOD] using hmax
  refine ⟨spec_orbit_origin, escape_loop_state_origin max_iter max_iter 0 (by omega), ?_, ?_⟩
  · rw [core_pixel_eq max_iter hmax2, escape_iter_origin]
  · exact escape_iter_origin max_iter

/-- Witness for C12 at the smallest cap, `max_iter = 1`. -/
theorem kernel_at_origin_witness :
    (1 ≤ 1 ∧ 1 < 2 ^ 16) ∧
    ((∀ n, spec_orbit (0, 0) n = (0, 0)) ∧
    escape_loop_state 1 (0 : ℚ) 0 1 0 0 0 = (0, 0, 1) ∧
    core_pixel 1 (0 : ℚ) 0 = 1 ∧
    escape_iter 1 (0 : ℚ) 0 = 1) :=
  ⟨⟨by decide, by norm_num⟩, kernel_at_origin 1 (by decide) (by norm_num)⟩

/-- C13 fails as stated on a render of one row by one thread (`dimx = 1`,
`dimy = 1`): after three steps the row is stored and the thread is back at the
claim with `line_num = 1 = dimy`; its next claim fails and leaves `line_num = 2`,
above the height. -/
theorem failed_claim_moves_cursor :
    (mandelbrot_multi (-2 : ℚ) (-1) 3 1 1 10 1 [0, 0, 0]).line_num = 1 ∧
    (mandelbrot_multi (-2 : ℚ) (-1) 3 1 1 10 1 [0, 0, 0]).pc 0 = .claim ∧
    ((mandelbrot_multi (-2 : ℚ) (-1) 3 1 1 10 1 [0, 0, 0, 0]).pc 0).isExited = true ∧
    (mandelbrot_multi (-2 : ℚ) (-1) 3 1 1 10 1 [0, 0, 0, 0]).line_num = 2 ∧
    1 < (mandelbrot_multi (-2 : ℚ) (-1) 3 1 1 10 1 [0, 0, 0, 0]).line_num := by
  have h3 := run_claim_row (mandelbrot_multi_params (-2 : ℚ) (-1) 3 1 1 10) 0
    (mandelbrot_multi_init 1) (by simp [mandelbrot_multi_init])
    (by simp [mandelbrot_multi_init, mandelbrot_multi_params])
    (by simp [mandelbrot_multi_init, UINT_MOD])
  have e3 : mandelbrot_multi (-2 : ℚ) (-1) 3 1 1 10 1 [0, 0, 0]
      = run (mandelbrot_multi_params (-2 : ℚ) (-1) 3 1 1 10)
          (List.replicate ((mandelbrot_multi_params (-2 : ℚ) (-1) 3 1 1 10).dimx + 2) 0)
          (mandelbrot_multi_init 1) := rfl
  have l3 : (mandelbrot_multi (-2 : ℚ) (-1) 3 1 1 10 1 [0, 0, 0]).line_num = 1 := by
    rw [e3, h3]; simp [mandelbrot_multi_init]
  have p3 : (mandelbrot_multi (-2 : ℚ) (-1) 3 1 1 10 1 [0, 0, 0]).pc 0 = .claim := by
    rw [e3, h3]; simp
  have e4 : mandelbrot_multi (-2 : ℚ) (-1) 3 1 1 10 1 [0, 0, 0, 0]
      = core_step (mandelbrot_multi_params (-2 : ℚ) (-1) 3 1 1 10) 0
          (mandelbrot_multi (-2 : ℚ) (-1) 3 1 1 10 1 [0, 0, 0]) := rfl
  have h4 := core_step_claim_fail (mandelbrot_multi_params (-2 : ℚ) (-1) 3 1 1 10) 0
    (mandelbrot_multi (-2 : ℚ) (-1) 3 1 1 10 1 [0, 0, 0]) p3
    (by rw [l3]; simp [mandelbrot_multi_params])
  have l4 : (mandelbrot_multi (-2 : ℚ) (-1) 3 1 1 10 1 [0, 0, 0, 0]).line_num = 2 := by
    rw [e4, h4]; simp [l3, UINT_MOD]
  refine ⟨l3, p3, ?_, l4, by rw [l4]; decide⟩
  rw [e4, h4]; simp [ThreadPc.isExited]

/-- C14, at the failing input `dimy = 2^32 - 1` with two threads (`dimx = 1`):
some schedule brings both threads to the claim with every row handed out and
`line_num = dimy`; the claim of thread 1 then observes `line_num >= dimy`,
fails, and wraps the cursor to 0; the later claim of thread 0 succeeds and is
handed row 0 a second time. -/
theorem exhaustion_is_not_permanent_on_wrap :
    ∃ sched,
      (mandelbrot_multi (-5 / 2 : ℚ) (-1) (7 / 2) 1 4294967295 1000 2 sched).pc 1 = .claim ∧
      4294967295 ≤
        (mandelbrot_multi (-5 / 2 : ℚ) (-1) (7 / 2) 1 4294967295 1000 2 sched).line_num ∧
      0 ∈ claimed_rows (mandelbrot_multi (-5 / 2 : ℚ) (-1) (7 / 2) 1 4294967295 1000 2 sched) ∧
      ((mandelbrot_multi (-5 / 2 : ℚ) (-1) (7 / 2) 1 4294967295 1000 2
          (sched ++ [1])).pc 1).isExited = true ∧
      (mandelbrot_multi (-5 / 2 : ℚ) (-1) (7 / 2) 1 4294967295 1000 2
          (sched ++ [1])).line_num = 0 ∧
      (mandelbrot_multi (-5 / 2 : ℚ) (-1) (7 / 2) 1 4294967295 1000 2
          (sched ++ [1] ++ [0])).claims
        = (0, 0) :: (mandelbrot_multi (-5 / 2 : ℚ) (-1) (7 / 2) 1 4294967295 1000 2
            (sched ++ [1])).claims := by
  obtain ⟨sched, h0, h1, hl, hrows⟩ := reach_cursor_at_dimy
    (mandelbrot_multi_params (-5 / 2 : ℚ) (-1) (7 / 2) 1 4294967295 1000)
    (by simp [mandelbrot_multi_params, UINT_MOD])
  have hd : (mandelbrot_multi_params (-5 / 2 : ℚ) (-1) (7 / 2) 1 4294967295 1000).dimy
      = 4294967295 := rfl
  have e1 : mandelbrot_multi (-5 / 2 : ℚ) (-1) (7 / 2) 1 4294967295 1000 2 (sched ++ [1])
      = core_step (mandelbrot_multi_params (-5 / 2 : ℚ) (-1) (7 / 2) 1 4294967295 1000) 1
          (run (mandelbrot_multi_params (-5 / 2 : ℚ) (-1) (7 / 2) 1 4294967295 1000) sched
            (mandelbrot_multi_init 2)) := by
    unfold mandelbrot_multi; rw [run_append]; rfl
  have f1 := core_step_claim_fail
    (mandelbrot_multi_params (-5 / 2 : ℚ) (-1) (7 / 2) 1 4294967295 1000) 1 _ h1
    (by rw [hl])
  have l1 : (mandelbrot_multi (-5 / 2 : ℚ) (-1) (7 / 2) 1 4294967295 1000 2
      (sched ++ [1])).line_num = 0 := by
    rw [e1, f1]; simp only [hl, hd, UINT_MOD]
  have p1 : (mandelbrot_multi (-5 / 2 : ℚ) (-1) (7 / 2) 1 4294967295 1000 2
      (sched ++ [1])).pc 0 = .claim := by
    rw [e1, core_step_pc_other _ 1 0 _ (by decide)]; exact h0
  have e2 : mandelbrot_multi (-5 / 2 : ℚ) (-1) (7 / 2) 1 4294967295 1000 2
        (sched ++ [1] ++ [0])
      = core_step (mandelbrot_multi_params (-5 / 2 : ℚ) (-1) (7 / 2) 1 4294967295 1000) 0
          (mandelbrot_multi (-5 / 2 : ℚ) (-1) (7 / 2) 1 4294967295 1000 2 (sched ++ [1])) := by
    unfold mandelbrot_multi; rw [run_append]; rfl
  refine ⟨sched, h1, ?_, hrows 0 (by rw [hd]; decide), ?_, l1, ?_⟩
  · unfold mandelbrot_multi; rw [hl, hd]
  · rw [e1, f1]; simp [ThreadPc.isExited]
  · rw [e2, core_step_claim_ok _ 0 _ p1 (by rw [l1, hd]; decide), l1]

/-- C15, at the failing input "the file cannot be opened": `write_ppm` does not
signal a failure (it neither ends the program nor returns without writing); it
goes on to use the null stream, passing it to `fprintf` at line 32. -/
theorem write_ppm_uses_null_stream (fl : ℚ → ℚ) (host : Endian) (dimx dimy : Nat)
    (img : Nat → Nat) :
    write_ppm_call fl host FopenResult.null dimx dimy img = CallOutcome.null_stream_used ∧
    (∀ status, write_ppm_call fl host FopenResult.null dimx dimy img
        ≠ CallOutcome.exited status) ∧
    write_ppm_call fl host FopenResult.null dimx dimy img ≠ CallOutcome.returned [] := by
  refine ⟨rfl, ?_, ?_⟩
  · intro status h; cases h
  · intro h; cases h

/-- C16 as amended: on a little-endian host, for every 2x2 buffer, the stream is
the header `P6`, newline, `2 2`, newline, `65535`, newline, followed by exactly
24 sample bytes: 12 two-byte samples, three equal ones per pixel, pixels in the
order of cells 0, 1, 2, 3, each sample big-endian. -/
theorem serialization_2x2 (fl : ℚ → ℚ) (img : Nat → Nat) :
    write_ppm fl Endian.little 2 2 img
      = ascii "P6\n2 2\n65535\n" ++
        [img 0, img 1, img 2, img 3].flatMap (fun index =>
          big_endian_sample (map_colour_value fl index) ++
          big_endian_sample (map_colour_value fl index) ++
          big_endian_sample (map_colour_value fl index)) ∧
    (ppm_body fl Endian.little 2 2 img).length = 24 ∧
    (write_ppm fl Endian.little 2 2 img).length = 13 + 24 := by
  have hb := ppm_body_length fl Endian.little 2 2 img
  have hh : ppm_header 2 2 = ascii "P6\n2 2\n65535\n" := by decide
  have hhl : (ppm_header 2 2).length = 13 := by rw [hh]; decide
  refine ⟨?_, hb, ?_⟩
  · unfold write_ppm
    rw [hh, ppm_body_eq]
    simp [List.range_succ, pixel_bytes_little, big_endian_sample, UINT_MOD]
  · unfold write_ppm
    rw [List.length_append, hhl, hb]

/-- C16 fails as stated on the 2x2 buffer of zeros: the header is followed by 24
bytes of samples, not 12. -/
theorem serialization_2x2_has_24_bytes :
    (ppm_body id Endian.little 2 2 (fun _ => 0)).length = 24 ∧
    (ppm_body id Endian.little 2 2 (fun _ => 0)).length ≠ 12 ∧
    write_ppm id Endian.little 2 2 (fun _ => 0)
      = ascii "P6\n2 2\n65535\n" ++ List.replicate 24 255 := by
  have hb := ppm_body_length id Endian.little 2 2 (fun _ => 0)
  refine ⟨hb, by rw [hb]; decide, ?_⟩
  have hv := map_colour_value_zero id (fun _ _ => rfl)
  have hh : ppm_header 2 2 = ascii "P6\n2 2\n65535\n" := by decide
  unfold write_ppm
  rw [hh, ppm_body_eq]
  have b1 : 65535 >>> 8 = 255 := by decide
  have b2 : 65535 &&& 255 = 255 := by decide
  simp [List.range_succ, pixel_bytes_little, hv, List.replicate, b1, b2]

/-- Witness for C17: width 0, three rows, two threads, exact arithmetic. -/
theorem degenerate_parameters_witness :
    (3 < 2 ^ 32 ∧ (0 = 0 ∨ 3 = 0 ∨ 2 = 0)) ∧
    ((∃ sched, joined 2 (mandelbrot_multi (-2 : ℚ) (-1) 3 0 3 10 2 sched)) ∧
    (∀ sched, (mandelbrot_multi (-2 : ℚ) (-1) 3 0 3 10 2 sched).writes = []) ∧
    (3 = 0 → ∀ sched, (∀ w, w < 2 → w ∈ sched) →
      joined 2 (mandelbrot_multi (-2 : ℚ) (-1) 3 0 3 10 2 sched)) ∧
    (2 = 0 → ∀ sched, joined 2 (mandelbrot_multi (-2 : ℚ) (-1) 3 0 3 10 2 sched))) :=
  ⟨⟨by norm_num, Or.inl rfl⟩,
   degenerate_parameters (-2 : ℚ) (-1) 3 0 3 10 2 (by norm_num) (Or.inl rfl)⟩

/-- C18. Single-threaded and multi-threaded renders agree, arithmetic read as
exact: for every viewport, sizes with `dimx * dimy <= 2^32`, cap `max_iter` (an
`unsigned short`) and `W >= 1` threads, some schedule lets every thread of
`mandelbrot_multi` return, and whenever every thread has returned the buffer
equals, cell for cell, the buffer `mandelbrot` fills. -/
theorem single_and_multi_agree (minx miny xsize : ℚ) (dimx dimy max_iter W : Nat)
    (hdimy : dimy < 2 ^ 32) (hmax : max_iter < 2 ^ 16) (hsz : dimx * dimy ≤ 2 ^ 32)
    (hW : 1 ≤ W) :
    (∃ sched, joined W (mandelbrot_multi minx miny xsize dimx dimy max_iter W sched)) ∧
    ∀ sched, joined W (mandelbrot_multi minx miny xsize dimx dimy max_iter W sched) →
      ∀ k, img_data (mandelbrot minx miny xsize dimx dimy max_iter) k
        = img_data (mandelbrot_multi minx miny xsize dimx dimy max_iter W sched).writes k := by
  have hM : UINT_MOD = 2 ^ 32 := by norm_num [UINT_MOD]
  have hdimy2 : (mandelbrot_multi_params minx miny xsize dimx dimy max_iter).dimy < UINT_MOD := by
    rw [hM]; exact hdimy
  have hsz2 : dimx * dimy ≤ UINT_MOD := by rw [hM]; exact hsz
  refine ⟨exists_joined _ hdimy2 W _, ?_⟩
  intro sched hj k
  have hb := joined_buffer (mandelbrot_multi_params minx miny xsize dimx dimy max_iter) W hW
    hdimy2 hsz2 sched hj k
  unfold mandelbrot_multi
  rw [hb, mandelbrot_buffer minx miny xsize dimx dimy max_iter hsz2 k]
  simp only [mandelbrot_multi_params]
  split
  · rw [core_pixel_eq max_iter (by simpa [USHORT_MOD] using hmax)]
    simp only [iterate_add_eq]
    have hc : miny + ((k / dimx : ℕ) : ℚ) * (xsize / (dimx : ℚ))
        = miny + xsize / (dimx : ℚ) * ((k / dimx : ℕ) : ℚ) := by ring
    rw [hc]
  · rfl

/-- Witness for C18: a 3x2 image, cap 10, two threads. -/
theorem single_and_multi_agree_witness :
    (2 < 2 ^ 32 ∧ 10 < 2 ^ 16 ∧ 3 * 2 ≤ 2 ^ 32 ∧ 1 ≤ 2) ∧
    ((∃ sched, joined 2 (mandelbrot_multi (-2 : ℚ) (-1) 3 3 2 10 2 sched)) ∧
    ∀ sched, joined 2 (mandelbrot_multi (-2 : ℚ) (-1) 3 3 2 10 2 sched) →
      ∀ k, img_data (mandelbrot (-2 : ℚ) (-1) 3 3 2 10) k
        = img_data (mandelbrot_multi (-2 : ℚ) (-1) 3 3 2 10 2 sched).writes k) :=
  ⟨⟨by norm_num, by norm_num, by norm_num, by norm_num⟩,
   single_and_multi_agree (-2 : ℚ) (-1) 3 3 2 10 2 (by norm_num) (by norm_num) (by norm_num)
     (by norm_num)⟩

/-- Witness for C19 at the cap of `main`, exact arithmetic. -/
theorem counts_within_cap_witness :
    1000 < 2 ^ 16 ∧
    ((∀ c_real c_img : ℚ,
        escape_iter 1000 c_real c_img ≤ 1000 ∧
        escape_iter 1000 c_real c_img ≤ 65535 ∧
        (∀ extra, escape_loop 1000 c_real c_img (1000 + extra) c_real c_img 0
            = escape_iter 1000 c_real c_img) ∧
        core_pixel 1000 c_real c_img = escape_iter 1000 c_real c_img) ∧
    (∀ (minx miny xsize : ℚ) (dimx dimy W : Nat) (sched : List Nat),
        (∀ e, e ∈ (mandelbrot_multi minx miny xsize dimx dimy 1000 W sched).writes →
          e.value ≤ 1000) ∧
        (∀ k v, img_data (mandelbrot_multi minx miny xsize dimx dimy 1000 W sched).writes k
          = some v → v ≤ 1000)) ∧
    (∀ (minx miny xsize : ℚ) (dimx dimy : Nat),
        (∀ e, e ∈ mandelbrot minx miny xsize dimx dimy 1000 → e.value ≤ 1000) ∧
        (∀ k v, img_data (mandelbrot minx miny xsize dimx dimy 1000) k = some v →
          v ≤ 1000))) :=
  ⟨by norm_num, counts_within_cap 1000 (by norm_num)⟩

end Mandelbrot
